import Mathlib

/-!
Verification development for a single-torrent BitTorrent client
(`app/bencoding.py`, `app/bittorrent_proto.py`, `app/requests.py`,
`app/metainfo.py`).  Byte strings are modelled as `List Nat` (each entry a
byte value), Python `str` values as lists of Unicode code points, machine
integers as `Nat`/`Int`, and Python exceptions as `Except` errors.
-/

namespace BT

/-! ## Bencode codec (`app/bencoding.py`)

Byte constants mirror `BYTE_I`, `BYTE_L`, `BYTE_D`, `BYTE_E`, `BYTE_0`,
`BYTE_9`, `BYTE_COL` from the source. -/

def cI : Nat := 105
def cL : Nat := 108
def cD : Nat := 100
def cE : Nat := 101
def cCol : Nat := 58
def cMinus : Nat := 45

/-- ASCII decimal digit test, `BYTE_0 <= prefix <= BYTE_9` in the source. -/
def isDigit (c : Nat) : Bool := 48 ≤ c && c ≤ 57

/-- Python exceptions that the modelled code can raise. -/
inductive PyErr where
  | indexError
  | valueError
  | typeError
  | unicodeDecodeError
  | unicodeEncodeError
  | outOfFuel
deriving DecidableEq

/-- Decidable equality for exception-carrying results, used to evaluate
concrete counterexamples. -/
instance {α β : Type} [DecidableEq α] [DecidableEq β] : DecidableEq (Except α β) :=
  fun a b =>
    match a, b with
    | .ok x, .ok y =>
      if h : x = y then .isTrue (by rw [h]) else .isFalse fun hc => h (Except.ok.inj hc)
    | .error x, .error y =>
      if h : x = y then .isTrue (by rw [h]) else .isFalse fun hc => h (Except.error.inj hc)
    | .ok _, .error _ => .isFalse fun hc => Except.noConfusion hc
    | .error _, .ok _ => .isFalse fun hc => Except.noConfusion hc

/-- Numeric value of a big-endian list of ASCII digit bytes. -/
def digitsVal (bs : List Nat) : Nat := bs.foldl (fun a c => a * 10 + (c - 48)) 0

/-- Python `int(bs)` on a byte string, restricted to an optional leading
minus sign followed by decimal digits.  (CPython additionally strips
surrounding whitespace and allows a leading plus and inner underscores;
no input produced by the bencode grammar or used in any claim has those
forms, and everything else raises `ValueError` exactly as modelled.) -/
def pyInt (bs : List Nat) : Except PyErr Int :=
  match bs with
  | [] => .error .valueError
  | c :: rest =>
    if c = 45 then
      if !rest.isEmpty && rest.all isDigit then .ok (-(digitsVal rest : Int))
      else .error .valueError
    else
      if (c :: rest).all isDigit then .ok (digitsVal (c :: rest) : Int)
      else .error .valueError

/-- UTF-8 continuation byte test (`0x80..0xBF`). -/
def isCont (b : Nat) : Bool := 128 ≤ b && b < 192

/-- Decode a 2-byte UTF-8 sequence with leading byte `b` (`0xC2..0xDF`,
so overlong forms are already excluded). -/
def utf8DecChar2 (b : Nat) : List Nat → Option (Nat × List Nat)
  | b1 :: bs2 =>
    if isCont b1 then some ((b - 192) * 64 + (b1 - 128), bs2) else none
  | _ => none

/-- Decode a 3-byte UTF-8 sequence: the code point must be ≥ `0x800`
(no overlong forms) and not a surrogate. -/
def utf8DecChar3 (b : Nat) : List Nat → Option (Nat × List Nat)
  | b1 :: b2 :: bs2 =>
    if isCont b1 && isCont b2
        && 2048 ≤ (b - 224) * 4096 + (b1 - 128) * 64 + (b2 - 128)
        && !(55296 ≤ (b - 224) * 4096 + (b1 - 128) * 64 + (b2 - 128)
             && (b - 224) * 4096 + (b1 - 128) * 64 + (b2 - 128) < 57344) then
      some ((b - 224) * 4096 + (b1 - 128) * 64 + (b2 - 128), bs2)
    else none
  | _ => none

/-- Decode a 4-byte UTF-8 sequence: code point in `0x10000..0x10FFFF`. -/
def utf8DecChar4 (b : Nat) : List Nat → Option (Nat × List Nat)
  | b1 :: b2 :: b3 :: bs2 =>
    if isCont b1 && isCont b2 && isCont b3
        && 65536 ≤ (b - 240) * 262144 + (b1 - 128) * 4096 + (b2 - 128) * 64 + (b3 - 128)
        && (b - 240) * 262144 + (b1 - 128) * 4096 + (b2 - 128) * 64 + (b3 - 128)
            < 1114112 then
      some ((b - 240) * 262144 + (b1 - 128) * 4096 + (b2 - 128) * 64 + (b3 - 128), bs2)
    else none
  | _ => none

/-- Decode one code point off the front of a byte list (strict UTF-8:
stray continuation bytes `0x80..0xBF` and the always-overlong leading
bytes `0xC0`/`0xC1` and `≥ 0xF5` are rejected). -/
def utf8DecChar : List Nat → Option (Nat × List Nat)
  | [] => none
  | b :: bs1 =>
    if b < 128 then some (b, bs1)
    else if b < 194 then none
    else if b < 224 then utf8DecChar2 b bs1
    else if b < 240 then utf8DecChar3 b bs1
    else if b < 245 then utf8DecChar4 b bs1
    else none

def utf8DecAux : Nat → List Nat → Option (List Nat)
  | _, [] => some []
  | 0, _ :: _ => none
  | fuel + 1, b :: bs =>
    match utf8DecChar (b :: bs) with
    | some (c, rest) =>
      match utf8DecAux fuel rest with
      | some cs => some (c :: cs)
      | none => none
    | none => none

/-- Strict UTF-8 decoding of a byte list to code points, as performed by
Python's `str(key, "utf-8")` (each step consumes at least one byte, so
`bs.length` fuel always suffices). -/
def utf8Dec (bs : List Nat) : Option (List Nat) := utf8DecAux bs.length bs

/-- UTF-8 encoding of one code point (Python `str.encode()`), `none` on
surrogates and values past U+10FFFF. -/
def utf8EncChar (c : Nat) : Option (List Nat) :=
  if c < 128 then some [c]
  else if c < 2048 then some [192 + c / 64, 128 + c % 64]
  else if c < 65536 then
    if 55296 ≤ c && c < 57344 then none
    else some [224 + c / 4096, 128 + c / 64 % 64, 128 + c % 64]
  else if c < 1114112 then
    some [240 + c / 262144, 128 + c / 4096 % 64, 128 + c / 64 % 64, 128 + c % 64]
  else none

/-- UTF-8 encoding of a whole code-point string. -/
def utf8Enc : List Nat → Option (List Nat)
  | [] => some []
  | c :: cs =>
    match utf8EncChar c, utf8Enc cs with
    | some b, some bs => some (b ++ bs)
    | _, _ => none

/-- Python runtime values handled by the bencode codec: `int`, `bytes`,
`str` (a list of code points), `list`, `dict` (insertion-ordered pairs). -/
inductive PyVal where
  | vint : Int → PyVal
  | vbytes : List Nat → PyVal
  | vstr : List Nat → PyVal
  | vlist : List PyVal → PyVal
  | vdict : List (PyVal × PyVal) → PyVal

/-- Python `==` on the hashable key values that can reach a decoded dict
(ints, bytes, str).  Containers never reach `dictInsert` because
`dictIns` raises `TypeError` on them first. -/
def pyKeyEq : PyVal → PyVal → Bool
  | .vint a, .vint b => a == b
  | .vbytes a, .vbytes b => a == b
  | .vstr a, .vstr b => a == b
  | _, _ => false

/-- Python `dict_value[key] = value` on an insertion-ordered dict:
replace in place if the key is present, else append. -/
def dictInsert (kvs : List (PyVal × PyVal)) (k v : PyVal) : List (PyVal × PyVal) :=
  match kvs with
  | [] => [(k, v)]
  | (k0, v0) :: rest =>
    if pyKeyEq k0 k then (k0, v) :: rest else (k0, v0) :: dictInsert rest k v

/-- `dict_value[key] = value` including Python's unhashable-key check. -/
def dictIns (kvs : List (PyVal × PyVal)) (k v : PyVal) :
    Except PyErr (List (PyVal × PyVal)) :=
  match k with
  | .vlist _ => .error .typeError
  | .vdict _ => .error .typeError
  | _ => .ok (dictInsert kvs k v)

/-- `if isinstance(key, bytes): key = str(key, "utf-8")` in the dict loop. -/
def keyConv : PyVal → Except PyErr PyVal
  | .vbytes bs =>
    match utf8Dec bs with
    | some cs => .ok (.vstr cs)
    | none => .error .unicodeDecodeError
  | v => .ok v

/-- `bytes.index(b, start)` : index of the first occurrence of byte `b` at
position ≥ `start`, scanning left to right (`ValueError` → `none`). -/
def scanIdx (b : Nat) : List Nat → Nat → Option Nat
  | [], _ => none
  | c :: rest, i => if c = b then some i else scanIdx b rest (i + 1)

def byteIndex (s : List Nat) (b : Nat) (start : Nat) : Option Nat :=
  scanIdx b (s.drop start) start

/-!
`_decode_bencode_impl(input, start_idx)` recurses at increasing indices
of the same buffer and every read is at index ≥ `start_idx`, so it is a
function of the suffix `input[start_idx:]`.  `decodeImpl` takes that
suffix and returns the decoded value together with the number of bytes to
advance (`next_idx - start_idx`); `decodeList` / `decodeDict` keep the
whole buffer and an absolute index exactly like the source loops.  The
`fuel` argument only bounds recursion depth; `decode_bencode` passes
`input.length + 1`, which is ample for every input a run can consume
(each recursive call advances by at least one byte).
-/
/-- Propagate an exception, continue on a value (explicit form of the
`Except` bind used to model `try`-free Python control flow). -/
def ebind : Except PyErr α → (α → Except PyErr β) → Except PyErr β
  | .error e, _ => .error e
  | .ok a, f => f a

mutual

def decodeImpl : Nat → List Nat → Except PyErr (PyVal × Nat)
  | 0, _ => .error .outOfFuel
  | fuel + 1, s =>
    if s.isEmpty then .error .indexError
    else
      if s.headD 0 = cI then
        -- i123e
        (byteIndex s cE 2).elim (.error .valueError) fun eIdx =>
          ebind (pyInt ((s.take eIdx).drop 1)) fun n => .ok (.vint n, eIdx + 1)
      else if isDigit (s.headD 0) then
        -- 3:abc  (the value slice silently clamps, as Python slicing does)
        (byteIndex s cCol 1).elim (.error .valueError) fun colIdx =>
          ebind (pyInt (s.take colIdx)) fun len =>
            .ok (.vbytes ((s.drop (colIdx + 1)).take len.toNat), colIdx + 1 + len.toNat)
      else if s.headD 0 = cL then decodeList fuel s 1 []
      else if s.headD 0 = cD then decodeDict fuel s 1 []
      else .error .valueError

def decodeList : Nat → List Nat → Nat → List PyVal → Except PyErr (PyVal × Nat)
  | 0, _, _, _ => .error .outOfFuel
  | fuel + 1, s, idx, acc =>
    (s[idx]?).elim (.error .indexError) fun b =>
      if b = cE then .ok (.vlist acc, idx + 1)
      else
        ebind (decodeImpl fuel (s.drop idx)) fun vc =>
          decodeList fuel s (idx + vc.2) (acc ++ [vc.1])

def decodeDict : Nat → List Nat → Nat → List (PyVal × PyVal) →
    Except PyErr (PyVal × Nat)
  | 0, _, _, _ => .error .outOfFuel
  | fuel + 1, s, idx, acc =>
    (s[idx]?).elim (.error .indexError) fun b =>
      if b = cE then .ok (.vdict acc, idx + 1)
      else
        ebind (decodeImpl fuel (s.drop idx)) fun kc =>
          ebind (keyConv kc.1) fun k =>
            ebind (decodeImpl fuel (s.drop (idx + kc.2))) fun vc =>
              ebind (dictIns acc k vc.1) fun acc1 =>
                decodeDict fuel s (idx + kc.2 + vc.2) acc1

end

/-- `decode_bencode`: decode from offset 0 and keep only the value. -/
def decode_bencode (s : List Nat) : Except PyErr PyVal :=
  (decodeImpl (s.length + 1) s).map (·.1)

/-- Little-endian base-10 digits, fuel-based so that the kernel can
evaluate it (`natDigits_eq_digits` relates it to `Nat.digits`). -/
def natDigitsAux : Nat → Nat → List Nat
  | 0, _ => []
  | _ + 1, 0 => []
  | fuel + 1, n => n % 10 :: natDigitsAux fuel (n / 10)

def natDigits (n : Nat) : List Nat := natDigitsAux n n

/-- Python `repr` of a natural number as ASCII digit bytes. -/
def natRepr (n : Nat) : List Nat :=
  if n = 0 then [48] else ((natDigits n).reverse).map (· + 48)

/-- Python `repr` of an `int` as ASCII bytes (used by `f"i{value}e"`). -/
def intRepr (n : Int) : List Nat :=
  if n < 0 then cMinus :: natRepr n.natAbs else natRepr n.toNat

mutual

/-- `encode_bencode(value)` from the source: ints as `i<repr>e`; bytes as
`<len>:<raw>`; `str` as `f"{len(value)}:{value}".encode()` — note the
length prefix counts *code points*, not encoded bytes; lists and dicts
by concatenation in order.  An unencodable code point or a failing
sub-encoding propagates its exception. -/
def encode_bencode : PyVal → Except PyErr (List Nat)
  | .vint n => .ok (cI :: intRepr n ++ [cE])
  | .vbytes bs => .ok (natRepr bs.length ++ cCol :: bs)
  | .vstr cs =>
    (utf8Enc cs).elim (.error .unicodeEncodeError) fun bs =>
      .ok (natRepr cs.length ++ cCol :: bs)
  | .vlist xs => ebind (encodeList xs) fun body => .ok (cL :: body ++ [cE])
  | .vdict kvs => ebind (encodeDict kvs) fun body => .ok (cD :: body ++ [cE])

def encodeList : List PyVal → Except PyErr (List Nat)
  | [] => .ok []
  | v :: vs =>
    ebind (encode_bencode v) fun b => ebind (encodeList vs) fun bs => .ok (b ++ bs)

def encodeDict : List (PyVal × PyVal) → Except PyErr (List Nat)
  | [] => .ok []
  | (k, v) :: kvs =>
    ebind (encode_bencode k) fun bk => ebind (encode_bencode v) fun bv =>
      ebind (encodeDict kvs) fun bs => .ok (bk ++ bv ++ bs)

end

/-- `encode_bencode(decode_bencode(s))`, the round trip of claim C1. -/
def bencRoundtrip (s : List Nat) : Except PyErr (List Nat) :=
  match decode_bencode s with
  | .ok v => encode_bencode v
  | .error e => .error e

/-! ## Abstract bencoded values and the conforming encoder (claim C1)

Claim C1 quantifies over byte strings produced by "a conforming encoder
that emits dictionary keys in sorted order".  `BVal` is the abstract
bencoded value (keys are raw byte strings) and `specEnc` that conforming
encoder; `wfv` states the claim's hypotheses on the value. -/

inductive BVal where
  | bint : Int → BVal
  | bstr : List Nat → BVal
  | blist : List BVal → BVal
  | bdict : List (List Nat × BVal) → BVal

/-- Strict lexicographic order on byte strings. -/
def lexLt : List Nat → List Nat → Bool
  | [], [] => false
  | [], _ :: _ => true
  | _ :: _, [] => false
  | a :: as, b :: bs => if a < b then true else if a = b then lexLt as bs else false

/-- Keys emitted in strictly sorted order. -/
def keysSorted : List (List Nat) → Bool
  | [] => true
  | [_] => true
  | a :: b :: rest => lexLt a b && keysSorted (b :: rest)

mutual

/-- Modelled from the spec: the conforming bencode encoder hypothesised by
claim C1 — canonical decimal integers `i<repr>e`, byte strings
`<len>:<raw>`, lists `l...e`, dictionaries `d...e` with raw byte-string
keys. -/
def specEnc : BVal → List Nat
  | .bint n => cI :: intRepr n ++ [cE]
  | .bstr bs => natRepr bs.length ++ cCol :: bs
  | .blist xs => cL :: specEncList xs ++ [cE]
  | .bdict kvs => cD :: specEncDict kvs ++ [cE]

def specEncList : List BVal → List Nat
  | [] => []
  | v :: vs => specEnc v ++ specEncList vs

def specEncDict : List (List Nat × BVal) → List Nat
  | [] => []
  | (k, v) :: kvs => (natRepr k.length ++ cCol :: k) ++ specEnc v ++ specEncDict kvs

end

mutual

/-- Hypotheses of (amended) claim C1 on an abstract value: byte strings
are genuine bytes, dictionary keys are ASCII byte strings emitted in
strictly sorted order. -/
def wfv : BVal → Bool
  | .bint _ => true
  | .bstr bs => bs.all (· < 256)
  | .blist xs => wfvList xs
  | .bdict kvs => keysSorted (kvs.map Prod.fst) && wfvDict kvs

def wfvList : List BVal → Bool
  | [] => true
  | v :: vs => wfv v && wfvList vs

def wfvDict : List (List Nat × BVal) → Bool
  | [] => true
  | (k, v) :: kvs => k.all (· < 128) && wfv v && wfvDict kvs

end

mutual

/-- The Python value `decode_bencode` produces for a conforming encoding:
identical, except that dictionary keys become `str` (for ASCII keys the
code points coincide with the bytes). -/
def pyOf : BVal → PyVal
  | .bint n => .vint n
  | .bstr bs => .vbytes bs
  | .blist xs => .vlist (pyOfList xs)
  | .bdict kvs => .vdict (pyOfDict kvs)

def pyOfList : List BVal → List PyVal
  | [] => []
  | v :: vs => pyOf v :: pyOfList vs

def pyOfDict : List (List Nat × BVal) → List (PyVal × PyVal)
  | [] => []
  | (k, v) :: kvs => (.vstr k, pyOf v) :: pyOfDict kvs

end

mutual

/-- Recursion depth sufficient for `decodeImpl` on a conforming encoding. -/
def fuelNeed : BVal → Nat
  | .bint _ => 1
  | .bstr _ => 1
  | .blist xs => 1 + fuelNeedList xs
  | .bdict kvs => 1 + fuelNeedDict kvs

def fuelNeedList : List BVal → Nat
  | [] => 1
  | v :: vs => fuelNeed v + fuelNeedList vs

def fuelNeedDict : List (List Nat × BVal) → Nat
  | [] => 1
  | (_, v) :: kvs => 1 + fuelNeed v + fuelNeedDict kvs

end

/-- Fresh-key condition maintained along the dict-decoding loop: the
pending keys are pairwise distinct and none collides with a key already
inserted into the accumulator. -/
def keysFresh (acc : List (PyVal × PyVal)) (kvs : List (List Nat × BVal)) : Prop :=
  (kvs.map Prod.fst).Nodup ∧
    ∀ kv ∈ kvs, ∀ p ∈ acc, pyKeyEq p.1 (.vstr kv.1) = false

/-! ## SHA-1 (`hashlib.sha1(...).digest()`), used by claim C2 -/

/-- Big-endian bytes of a value, fixed width. -/
def beBytes : Nat → Nat → List Nat
  | 0, _ => []
  | k + 1, v => beBytes k (v / 256) ++ [v % 256]

/-- 32-bit left rotation. -/
def rotl32 (k x : Nat) : Nat := (x <<< k ||| x >>> (32 - k)) % 4294967296

/-- SHA-1 padding: `0x80`, zeros to 56 mod 64, 8-byte big-endian bit length. -/
def sha1Pad (msg : List Nat) : List Nat :=
  msg ++ 128 :: List.replicate ((55 + 64 - msg.length % 64) % 64) 0
    ++ beBytes 8 (msg.length * 8)

/-- Group bytes into big-endian 32-bit words. -/
def toWords : List Nat → List Nat
  | b0 :: b1 :: b2 :: b3 :: rest => (((b0 * 256 + b1) * 256 + b2) * 256 + b3) :: toWords rest
  | _ => []

/-- Split into 64-byte blocks (fuel-based so the kernel can evaluate it;
each step consumes 64 bytes, so `l.length` steps always suffice). -/
def chunk64Aux : Nat → List Nat → List (List Nat)
  | 0, _ => []
  | _ + 1, [] => []
  | fuel + 1, a :: t => (a :: t).take 64 :: chunk64Aux fuel ((a :: t).drop 64)

def chunk64 (l : List Nat) : List (List Nat) := chunk64Aux l.length l

/-- Message-schedule extension from 16 to 80 words. -/
def extendW : List Nat → Nat → List Nat
  | w, 0 => w
  | w, k + 1 =>
    extendW (w ++ [rotl32 1 ((w.getD (w.length - 3) 0 ^^^ w.getD (w.length - 8) 0)
      ^^^ (w.getD (w.length - 14) 0 ^^^ w.getD (w.length - 16) 0))]) k

/-- One SHA-1 compression round. -/
def sha1Round (st : Nat × Nat × Nat × Nat × Nat) (p : Nat × Nat) :
    Nat × Nat × Nat × Nat × Nat :=
  let (a, b, c, d, e) := st
  let (i, wi) := p
  let f :=
    if i < 20 then b &&& c ||| (4294967295 ^^^ b) &&& d
    else if i < 40 then b ^^^ c ^^^ d
    else if i < 60 then b &&& c ||| b &&& d ||| c &&& d
    else b ^^^ c ^^^ d
  let k :=
    if i < 20 then 1518500249
    else if i < 40 then 1859775393
    else if i < 60 then 2400959708
    else 3395469782
  ((rotl32 5 a + f + e + k + wi) % 4294967296, a, rotl32 30 b, c, d)

/-- Compress one 64-byte block into the running state. -/
def sha1Compress (st : Nat × Nat × Nat × Nat × Nat) (block : List Nat) :
    Nat × Nat × Nat × Nat × Nat :=
  let (h0, h1, h2, h3, h4) := st
  let (a, b, c, d, e) :=
    ((List.range 80).zip (extendW (toWords block) 64)).foldl sha1Round (h0, h1, h2, h3, h4)
  ((h0 + a) % 4294967296, (h1 + b) % 4294967296, (h2 + c) % 4294967296,
    (h3 + d) % 4294967296, (h4 + e) % 4294967296)

/-- SHA-1 digest (20 bytes) of a byte string. -/
def sha1 (msg : List Nat) : List Nat :=
  let st := (chunk64 (sha1Pad msg)).foldl sha1Compress
    (1732584193, 4023233417, 2562383102, 271733878, 3285377520)
  beBytes 4 st.1 ++ beBytes 4 st.2.1 ++ beBytes 4 st.2.2.1
    ++ beBytes 4 st.2.2.2.1 ++ beBytes 4 st.2.2.2.2

/-! ## Request construction and final assembly (`app/requests.py`) -/

/-- `RequestMsg(index, begin, length)`. -/
structure RequestM where
  index : Nat
  begin : Nat
  length : Nat
deriving DecidableEq

/-- `PieceMsg(index, begin, block)`. -/
structure PieceMsgM where
  index : Nat
  begin : Nat
  block : List Nat
deriving DecidableEq

/-- `_Downloader.BLOCK_SIZE = 16 * 1024`. -/
def BLOCK_SIZE : Nat := 16384

/-- `piece_length = min(piece_begin + meta.piece_length, meta.length) - piece_begin`
with `piece_begin = meta.piece_length * index`.  Modelled over `Nat`;
under the precondition `P * i < T` of claim C9 the subtraction never
truncates, matching Python's exact integers. -/
def pieceLen (P T i : Nat) : Nat := min (P * i + P) T - P * i

/-- `ceil(piece_length / BLOCK_SIZE)`; exact ceiling division, which is
what `math.ceil` computes here (Python uses float division, which agrees
at every realistic size). -/
def numBlocks (pl : Nat) : Nat := (pl + BLOCK_SIZE - 1) / BLOCK_SIZE

/-- The per-piece block requests built in `_Downloader.__init__`:
`begin = i * BLOCK_SIZE`, `length = min(BLOCK_SIZE, piece_length - begin)`. -/
def mkRequests (P T i : Nat) : List RequestM :=
  (List.range (numBlocks (pieceLen P T i))).map fun j =>
    ⟨i, j * BLOCK_SIZE, min BLOCK_SIZE (pieceLen P T i - j * BLOCK_SIZE)⟩

/-- Scheduler errors (`RuntimeError("Failed to download all blocks")`, with
the accumulated worker errors printed first). -/
inductive DLErr where
  | downloadFailed (errors : List Nat)
deriving DecidableEq

/-- `self._blocks.sort(key=lambda p: p.begin)` followed by writing each
block: the assembled output bytes.  Python's sort is stable; insertion
sort is the (unique) stable sort for this key, hence a faithful model. -/
def assembleBlocks (blocks : List PieceMsgM) : List Nat :=
  ((blocks.insertionSort fun a b => a.begin ≤ b.begin).map (·.block)).flatten

/-- The tail of `_Downloader.download` after the scheduling loop: fail if
blocks are missing (printing the accumulated errors), otherwise sort the
blocks by `begin` and write their payloads to the output file.  No hash
of any kind is computed. -/
def downloadFinish (blocks : List PieceMsgM) (nBlocks : Nat) (errors : List Nat) :
    Except DLErr (List Nat) :=
  if blocks.length < nBlocks then .error (.downloadFailed errors)
  else .ok (assembleBlocks blocks)

/-! ## Wire protocol (`app/bittorrent_proto.py`) -/

/-- Errors raised by the wire-protocol code: `ConnectionError` on short
reads, `AssertionError` from `assert`, `RuntimeError(f"Unknown message id")`,
`NotImplementedError`, `struct.error`, and
`RuntimeError("Can't get parts when not ready")`. -/
inductive WireErr where
  | connectionError
  | assertionError
  | unknownMessage (id : Nat)
  | notImplementedError
  | structError
  | notReady
deriving DecidableEq

/-- Propagate a wire-protocol exception, continue on a value. -/
def wbind : Except WireErr α → (α → Except WireErr β) → Except WireErr β
  | .error e, _ => .error e
  | .ok a, f => f a

/-- `PROTO_NAME = b"BitTorrent protocol"` (19 bytes). -/
def PROTO : List Nat :=
  [66, 105, 116, 84, 111, 114, 114, 101, 110, 116, 32,
   112, 114, 111, 116, 111, 99, 111, 108]

/-- The unpacked handshake fields (`!B19s8s20s20s`). -/
structure HandshakeM where
  pstrlen : Nat
  pstr : List Nat
  infoHash : List Nat
  peerId : List Nat
deriving DecidableEq

/-- `recv_handshake`: read 68 bytes (`ConnectionError` on a short read),
unpack, and assert `pstrlen == 19` and `pstr == PROTO_NAME`
(`HandshakeMessage.unpack`).  The 20-byte length asserts of
`HandshakeMessage.__new__` hold by construction of the slices. -/
def recvHandshake (stream : List Nat) : Except WireErr HandshakeM :=
  let data := stream.take 68
  if data.length ≠ 68 then .error .connectionError
  else
    let m : HandshakeM :=
      ⟨data.getD 0 0, (data.drop 1).take 19, (data.drop 28).take 20, (data.drop 48).take 20⟩
    if m.pstrlen ≠ 19 then .error .assertionError
    else if m.pstr ≠ PROTO then .error .assertionError
    else .ok m

/-- The handshake phase of `PeerConnection.__init__`: after sending our
handshake it stores `recv_handshake(self._io)`.  The local info hash is
in scope (it was just sent) but the received `info_hash` is never
compared against it; the caller reads `peer_id` off the result. -/
def handshakeStep (localInfoHash : List Nat) (stream : List Nat) :
    Except WireErr (List Nat) :=
  wbind (recvHandshake stream) fun m => .ok m.peerId

/-- Typed peer messages as produced by `read_msg` (`RequestMsg` cannot be
produced: its `_unpack_payload` raises `NotImplementedError`). -/
inductive PeerMsgM where
  | unchoke
  | interested
  | bitfield
  | piece (index begin : Nat) (block : List Nat)
deriving DecidableEq

/-- Big-endian value of a byte list (`struct.unpack` of `!I` fields). -/
def beNat (bs : List Nat) : Nat := bs.foldl (fun a b => a * 256 + b) 0

/-- `read_msg`: read a 5-byte header (`ConnectionError` when short),
reject ids outside `_MSG_CLASS_MAP = {1, 2, 5, 6, 7}` with
`RuntimeError(f"Unknown message id: {id}")`, then read `size - 1` payload
bytes and unpack.  For `size == 0` Python computes `io.read(-1)`, which
reads the entire remaining stream.  Returns the message and the
remaining stream. -/
def readMsg (stream : List Nat) : Except WireErr (PeerMsgM × List Nat) :=
  let header := stream.take 5
  if header.length ≠ 5 then .error .connectionError
  else
    let size := beNat (header.take 4)
    let id := header.getD 4 0
    let rest := stream.drop 5
    if id ≠ 1 ∧ id ≠ 2 ∧ id ≠ 5 ∧ id ≠ 6 ∧ id ≠ 7 then .error (.unknownMessage id)
    else
      let payload := if size = 0 then rest else rest.take (size - 1)
      let remaining := if size = 0 then [] else rest.drop (size - 1)
      if id = 1 then
        if payload.length = 0 then .ok (.unchoke, remaining) else .error .assertionError
      else if id = 2 then
        if payload.length = 0 then .ok (.interested, remaining) else .error .assertionError
      else if id = 5 then .ok (.bitfield, remaining)
      else if id = 6 then .error .notImplementedError
      else
        if payload.length < 8 then .error .structError
        else .ok (.piece (beNat (payload.take 4)) (beNat ((payload.drop 4).take 4))
          (payload.drop 8), remaining)

/-- The post-handshake warm-up of `PeerConnection.__init__`: read one
message and `assert isinstance(msg, BitfieldMsg)`, send `Interested`,
read one message and `assert isinstance(msg, UnchokeMsg)`; only then is
`_ready` set.  Returns the remaining stream on success. -/
def warmup (stream : List Nat) : Except WireErr (List Nat) :=
  wbind (readMsg stream) fun mr =>
    if mr.1 = .bitfield then
      wbind (readMsg mr.2) fun mr2 =>
        if mr2.1 = .unchoke then .ok mr2.2 else .error .assertionError
    else .error .assertionError

/-- The peer-connection state that `get_blocks`/`close` consult. -/
structure ConnM where
  ready : Bool
deriving DecidableEq

/-- `PeerConnection.__init__`: `_ready = False`; handshake (68 bytes of
the incoming stream); return immediately when `only_handshake`;
otherwise run the warm-up and set `_ready = True`. -/
def connInit (onlyHandshake : Bool) (localInfoHash : List Nat) (stream : List Nat) :
    Except WireErr (ConnM × List Nat) :=
  wbind (handshakeStep localInfoHash stream) fun _ =>
    if onlyHandshake then .ok (⟨false⟩, stream.drop 68)
    else wbind (warmup (stream.drop 68)) fun rest2 => .ok (⟨true⟩, rest2)

/-- `PeerConnection.close`: `_ready = False`, socket and buffer released. -/
def closeConn (c : ConnM) : ConnM := { c with ready := false }

/-- Read `n` framed messages, each of which must be a `PieceMsg`. -/
def readPieces : Nat → List Nat → Except WireErr (List PieceMsgM × List Nat)
  | 0, stream => .ok ([], stream)
  | n + 1, stream =>
    match readMsg stream with
    | .error e => .error e
    | .ok (.piece a b blk, rest) =>
      match readPieces n rest with
      | .ok (ps, r) => .ok (⟨a, b, blk⟩ :: ps, r)
      | .error e => .error e
    | .ok _ => .error .assertionError

/-- `PeerConnection.get_blocks`: raise
`RuntimeError("Can't get parts when not ready")` when `not self._ready`,
else send every request back-to-back and read `len(requests)` piece
messages.  The second component is the list of requests actually written
to the wire. -/
def getBlocks (c : ConnM) (reqs : List RequestM) (stream : List Nat) :
    Except WireErr (List PieceMsgM × List Nat) × List RequestM :=
  if ¬ c.ready then (.error .notReady, [])
  else (readPieces reqs.length stream, reqs)

/-! ## Piece-download scheduler (`_Downloader`, claims C7 and C8) -/

/-- `Proc.status` literals. -/
inductive PStatus where
  | uninit
  | ready
  | working
  | dead
deriving DecidableEq

/-- The scheduler-visible part of a `Proc`: its status and the batch it
holds in flight. -/
structure ProcM where
  status : PStatus
  batch : Option (List RequestM)
deriving DecidableEq

/-- `_Downloader` state: the batch queue, the worker pool, the collected
blocks, the accumulated worker errors (opaque codes), and `done`, a
history variable recording the batches whose results were delivered —
it is written only next to `self._blocks.extend(result)` and lets the
conservation invariant of claim C7 be stated. -/
structure DState where
  batches : List (List RequestM)
  procs : List ProcM
  blocks : List PieceMsgM
  errors : List Nat
  done : List (List RequestM)
deriving DecidableEq

/-- `get_batch`: pop from the head of the queue, `None` when empty. -/
def getBatch (s : DState) : Option (List RequestM) × DState :=
  match s.batches with
  | [] => (none, s)
  | b :: rest => (some b, { s with batches := rest })

/-- `_end_proc`: requeue the in-flight batch at the tail (under Python
truthiness `if proc.batch:`, so an empty batch would not be requeued),
then mark the proc dead.  Pipe/process teardown has no scheduler-visible
effect. -/
def endProc (s : DState) (i : Nat) : DState :=
  match s.procs[i]? with
  | none => s
  | some p =>
    match p.batch with
    | some b =>
      if b ≠ [] then
        { s with batches := s.batches ++ [b],
                 procs := s.procs.set i { status := .dead, batch := none } }
      else { s with procs := s.procs.set i { status := .dead, batch := some b } }
    | none => { s with procs := s.procs.set i { status := .dead, batch := none } }

/-- `_handle_ready`: `_validate_proc` first (`dead` → no change; not
alive → `_end_proc`), then pop a batch and, when truthy, hand it to the
proc and mark it working.  `alive` stands for
`proc.proc.is_alive() and not pipes closed`. -/
def handleReady (s : DState) (i : Nat) (alive : Bool) : DState :=
  match s.procs[i]? with
  | none => s
  | some p =>
    if p.status = .dead then s
    else if ¬ alive then endProc s i
    else
      match getBatch s with
      | (some b, s1) =>
        if b ≠ [] then
          { s1 with procs := s1.procs.set i { p with status := .working, batch := some b } }
        else s1
      | (none, s1) => s1

/-- What `proc.pipe_main.recv()` produced for a working proc. -/
inductive WorkResult where
  | success (pieces : List PieceMsgM)
  | exc (err : Nat)
  | sentinel
  | eofError
deriving DecidableEq

/-- `_handle_working`: validate; `recv`; on exception record the error
and `_end_proc`; on `None` or `EOFError`/`ConnectionResetError`,
`_end_proc`; on success extend the blocks, clear the batch, mark ready
and immediately `_handle_ready` again.  (`done` is the history variable;
both validation checks of a single call are summarised by `alive`.) -/
def handleWorking (s : DState) (i : Nat) (alive : Bool) (res : WorkResult) : DState :=
  match s.procs[i]? with
  | none => s
  | some p =>
    if p.status = .dead then s
    else if ¬ alive then endProc s i
    else
      match res with
      | .eofError => endProc s i
      | .exc e => endProc { s with errors := s.errors ++ [e] } i
      | .sentinel => endProc s i
      | .success pieces =>
        handleReady
          { s with blocks := s.blocks ++ pieces,
                   done := s.done ++ (match p.batch with | some b => [b] | none => []),
                   procs := s.procs.set i { p with status := .ready, batch := none } }
          i alive

/-- `Proc.__bool__`: a proc is truthy unless dead. -/
def procAlive (p : ProcM) : Bool := p.status ≠ .dead

/-- `_can_continue`. -/
def canContinue (s : DState) (nBlocks : Nat) : Bool :=
  if s.blocks.length ≥ nBlocks then false
  else if ¬ s.procs.any procAlive then false
  else true

/-- Multiset-conservation carrier for claim C7: batches pending in the
queue, in flight at procs, and delivered. -/
def unitsOf (s : DState) : List (List RequestM) :=
  s.batches ++ s.procs.filterMap (·.batch) ++ s.done

/-- Well-formedness maintained by the scheduler: every queued or
in-flight batch is nonempty (guaranteed by `itertools.batched`) and dead
procs hold no batch. -/
def dwf (s : DState) : Prop :=
  (∀ b ∈ s.batches, b ≠ []) ∧
  (∀ p ∈ s.procs, ∀ b, p.batch = some b → b ≠ []) ∧
  (∀ p ∈ s.procs, p.status = .dead → p.batch = none)

instance (s : DState) : Decidable (dwf s) := by
  unfold dwf; infer_instance

/-! ## Decimal digit lemmas -/

theorem natDigitsAux_eq (fuel n : Nat) (h : n ≤ fuel) :
    natDigitsAux fuel n = Nat.digits 10 n := by
  induction fuel generalizing n with
  | zero =>
    interval_cases n
    simp [natDigitsAux]
  | succ fuel ih =>
    cases n with
    | zero => simp [natDigitsAux]
    | succ m =>
      have hdiv : (m + 1) / 10 < m + 1 := Nat.div_lt_self (Nat.succ_pos m) (by norm_num)
      rw [natDigitsAux, ih _ (by omega),
        ← Nat.digits_def' (by norm_num : (1:Nat) < 10) (Nat.succ_pos m)]
      omega

theorem natDigits_eq (n : Nat) : natDigits n = Nat.digits 10 n :=
  natDigitsAux_eq n n le_rfl

theorem natRepr_ne_nil (n : Nat) : natRepr n ≠ [] := by
  unfold natRepr
  split
  · simp
  · next h =>
    rw [natDigits_eq]
    simp [Nat.digits_ne_nil_iff_ne_zero, h]

theorem natRepr_bounds {n c : Nat} (h : c ∈ natRepr n) : 48 ≤ c ∧ c ≤ 57 := by
  unfold natRepr at h
  split at h
  · simp at h; omega
  · rw [natDigits_eq] at h
    simp only [List.mem_map, List.mem_reverse] at h
    obtain ⟨d, hd, rfl⟩ := h
    have := Nat.digits_lt_base (by norm_num) hd
    omega

theorem natRepr_head (n : Nat) :
    ∃ hd td, natRepr n = hd :: td ∧ 48 ≤ hd ∧ hd ≤ 57 := by
  cases hr : natRepr n with
  | nil => exact absurd hr (natRepr_ne_nil n)
  | cons hd td =>
    have := natRepr_bounds (hr ▸ List.mem_cons_self hd td)
    exact ⟨hd, td, rfl, this.1, this.2⟩

theorem foldl_base10 (L : List Nat) (a : Nat) :
    L.foldl (fun x d => x * 10 + d) a = a * 10 ^ L.length + Nat.ofDigits 10 L.reverse := by
  induction L generalizing a with
  | nil => simp [Nat.ofDigits]
  | cons d L ih =>
    rw [List.foldl_cons, ih, List.reverse_cons, Nat.ofDigits_append]
    simp only [Nat.ofDigits, List.length_cons, List.length_reverse, pow_succ,
      Nat.ofDigits_cons, Nat.ofDigits_nil]
    push_cast
    ring

theorem digitsVal_map_add48 (M : List Nat) :
    digitsVal (M.map (· + 48)) = M.foldl (fun x d => x * 10 + d) 0 := by
  unfold digitsVal
  rw [List.foldl_map]
  simp only [Nat.add_sub_cancel]

theorem digitsVal_natRepr (n : Nat) : digitsVal (natRepr n) = n := by
  unfold natRepr
  split
  · next h => simp [digitsVal, h]
  · next h =>
    rw [digitsVal_map_add48, foldl_base10, natDigits_eq, List.reverse_reverse,
      Nat.ofDigits_digits]
    simp

theorem pyInt_natRepr (n : Nat) : pyInt (natRepr n) = .ok (n : Int) := by
  have hall : ∀ c ∈ natRepr n, isDigit c = true := by
    intro c hc
    have := natRepr_bounds hc
    simp [isDigit]; omega
  cases hr : natRepr n with
  | nil => exact absurd hr (natRepr_ne_nil n)
  | cons h t =>
    have hb : 48 ≤ h ∧ h ≤ 57 := natRepr_bounds (hr ▸ List.mem_cons_self h t)
    rw [pyInt]
    rw [if_neg (by omega : ¬ h = 45), if_pos]
    · rw [← hr, digitsVal_natRepr]
    · rw [← hr]
      simp only [List.all_eq_true]
      exact hall

theorem pyInt_intRepr (m : Int) : pyInt (intRepr m) = .ok m := by
  unfold intRepr
  split
  · next h =>
    rw [pyInt]
    simp only [cMinus, if_true]
    rw [if_pos]
    · have h1 : digitsVal (natRepr m.natAbs) = m.natAbs := digitsVal_natRepr _
      rw [h1]
      congr 1
      omega
    · have h2 : ∀ c ∈ natRepr m.natAbs, isDigit c = true := by
        intro c hc
        have := natRepr_bounds hc
        simp [isDigit]; omega
      simp only [Bool.and_eq_true, List.all_eq_true]
      refine ⟨?_, h2⟩
      cases hr : natRepr m.natAbs with
      | nil => exact absurd hr (natRepr_ne_nil _)
      | cons a t => simp
  · next h =>
    rw [pyInt_natRepr]
    congr 1
    omega

theorem intRepr_ne_nil (m : Int) : intRepr m ≠ [] := by
  unfold intRepr
  split
  · simp
  · exact natRepr_ne_nil _

theorem intRepr_bounds {m : Int} {c : Nat} (h : c ∈ intRepr m) :
    c = 45 ∨ (48 ≤ c ∧ c ≤ 57) := by
  unfold intRepr at h
  split at h
  · rcases List.mem_cons.mp h with h1 | h1
    · exact Or.inl h1
    · exact Or.inr (natRepr_bounds h1)
  · exact Or.inr (natRepr_bounds h)

/-! ## Scanning and token lemmas for the decoder -/

theorem scanIdx_append (b : Nat) (l1 l2 : List Nat) (i : Nat)
    (h : ∀ c ∈ l1, c ≠ b) : scanIdx b (l1 ++ b :: l2) i = some (i + l1.length) := by
  induction l1 generalizing i with
  | nil => simp [scanIdx]
  | cons c l1 ih =>
    have hc : c ≠ b := h c (List.mem_cons_self c l1)
    simp only [List.cons_append, scanIdx, if_neg hc, List.append_eq]
    rw [ih _ (fun x hx => h x (List.mem_cons_of_mem c hx))]
    congr 1
    simp
    omega

theorem decodeImpl_strTok (fuel L : Nat) (tl : List Nat) :
    decodeImpl (fuel + 1) (natRepr L ++ cCol :: tl)
      = .ok (.vbytes (tl.take L), (natRepr L).length + 1 + L) := by
  cases hr : natRepr L with
  | nil => exact absurd hr (natRepr_ne_nil L)
  | cons h t =>
    have hb : 48 ≤ h ∧ h ≤ 57 := natRepr_bounds (hr ▸ List.mem_cons_self h t)
    have ht : ∀ c ∈ t, 48 ≤ c ∧ c ≤ 57 := fun c hc =>
      natRepr_bounds (hr ▸ List.mem_cons_of_mem h hc)
    have hcol : byteIndex (h :: (t ++ cCol :: tl)) cCol 1 = some (t.length + 1) := by
      unfold byteIndex
      rw [List.drop_succ_cons, List.drop_zero,
        scanIdx_append cCol t tl 1 (by intro c hc; have := ht c hc; simp [cCol]; omega)]
      congr 1
      omega
    have htake : (h :: (t ++ cCol :: tl)).take (t.length + 1) = natRepr L := by
      rw [List.take_succ_cons, List.take_left, hr]
    have hdrop : (h :: (t ++ cCol :: tl)).drop (t.length + 1 + 1) = tl := by
      rw [List.drop_succ_cons, ← List.drop_drop, List.drop_left, List.drop_one,
        List.tail_cons]
    have hne : ¬ h = cI := by simp only [cI]; omega
    have hdig : isDigit h = true := by simp [isDigit]; omega
    simp only [List.cons_append]
    simp only [decodeImpl, List.isEmpty_cons, Bool.false_eq_true, if_false,
      List.headD_cons, if_neg hne, if_pos hdig, hcol, Option.elim, htake,
      pyInt_natRepr, ebind, Int.toNat_natCast, hdrop, List.length_cons]

theorem decodeImpl_intTok (fuel : Nat) (n : Int) (rest : List Nat) :
    decodeImpl (fuel + 1) (cI :: intRepr n ++ cE :: rest)
      = .ok (.vint n, (intRepr n).length + 2) := by
  cases hr : intRepr n with
  | nil => exact absurd hr (intRepr_ne_nil n)
  | cons h t =>
    have ht : ∀ c ∈ t, c = 45 ∨ (48 ≤ c ∧ c ≤ 57) := fun c hc =>
      intRepr_bounds (hr ▸ List.mem_cons_of_mem h hc)
    have he : byteIndex (cI :: h :: (t ++ cE :: rest)) cE 2 = some (t.length + 2) := by
      unfold byteIndex
      rw [show (cI :: h :: (t ++ cE :: rest)).drop 2 = t ++ cE :: rest by simp,
        scanIdx_append cE t rest 2 (by
          intro c hc
          rcases ht c hc with h1 | h1 <;> simp [cE] <;> omega)]
      congr 1
      omega
    have htake : (cI :: h :: (t ++ cE :: rest)).take (t.length + 2) = cI :: h :: t := by
      rw [show t.length + 2 = (t.length + 1) + 1 by omega, List.take_succ_cons,
        List.take_succ_cons, List.take_left]
    have hir : List.drop 1 (List.take (t.length + 2) (cI :: h :: (t ++ cE :: rest)))
        = intRepr n := by
      rw [htake, List.drop_one, List.tail_cons, hr]
    simp only [List.cons_append]
    simp only [decodeImpl, List.isEmpty_cons, Bool.false_eq_true, if_false,
      List.headD_cons, eq_self_iff_true, if_true, he, Option.elim, hir,
      pyInt_intRepr, ebind, List.length_cons]

/-! ## UTF-8, dictionary and key-order lemmas -/

theorem utf8DecChar_ascii (b : Nat) (bs : List Nat) (h : b < 128) :
    utf8DecChar (b :: bs) = some (b, bs) := by
  rw [utf8DecChar, if_pos h]

theorem utf8DecAux_ascii (fuel : Nat) (bs : List Nat) (h : ∀ c ∈ bs, c < 128)
    (hf : bs.length ≤ fuel) : utf8DecAux fuel bs = some bs := by
  induction fuel generalizing bs with
  | zero =>
    cases bs with
    | nil => rfl
    | cons b t => simp at hf
  | succ fuel ih =>
    cases bs with
    | nil => rfl
    | cons b t =>
      have h1 : utf8DecAux (fuel + 1) (b :: t)
          = match utf8DecAux fuel t with
            | some cs => some (b :: cs)
            | none => none := by
        rw [utf8DecAux, utf8DecChar_ascii b t (h b (List.mem_cons_self b t))]
      rw [h1, ih t (fun c hc => h c (List.mem_cons_of_mem b hc)) (by simp at hf; omega)]

theorem utf8Dec_ascii (bs : List Nat) (h : ∀ c ∈ bs, c < 128) : utf8Dec bs = some bs :=
  utf8DecAux_ascii bs.length bs h le_rfl

theorem utf8EncChar_ascii (c : Nat) (h : c < 128) : utf8EncChar c = some [c] := by
  unfold utf8EncChar
  rw [if_pos h]

theorem utf8Enc_ascii (cs : List Nat) (h : ∀ c ∈ cs, c < 128) : utf8Enc cs = some cs := by
  induction cs with
  | nil => rfl
  | cons c t ih =>
    rw [utf8Enc, utf8EncChar_ascii c (h c (List.mem_cons_self c t)),
      ih fun x hx => h x (List.mem_cons_of_mem c hx)]
    rfl

theorem dictInsert_append (kvs : List (PyVal × PyVal)) (k v : PyVal)
    (h : ∀ p ∈ kvs, pyKeyEq p.1 k = false) :
    dictInsert kvs k v = kvs ++ [(k, v)] := by
  induction kvs with
  | nil => rfl
  | cons p rest ih =>
    obtain ⟨k0, v0⟩ := p
    have h0 : pyKeyEq k0 k = false := h ⟨k0, v0⟩ (List.mem_cons_self _ _)
    rw [dictInsert, if_neg (by simp [h0]),
      ih fun q hq => h q (List.mem_cons_of_mem _ hq)]
    rfl

theorem pyKeyEq_vstr (a b : List Nat) : pyKeyEq (.vstr a) (.vstr b) = (a == b) := rfl

theorem lexLt_irrefl (a : List Nat) : lexLt a a = false := by
  induction a with
  | nil => rfl
  | cons x as ih => simp [lexLt, ih]

theorem lexLt_trans {a b c : List Nat} (h1 : lexLt a b = true) (h2 : lexLt b c = true) :
    lexLt a c = true := by
  induction a generalizing b c with
  | nil =>
    cases b with
    | nil => simp [lexLt] at h1
    | cons y bs =>
      cases c with
      | nil => simp [lexLt] at h2
      | cons z cs => simp [lexLt]
  | cons x as ih =>
    cases b with
    | nil => simp [lexLt] at h1
    | cons y bs =>
      cases c with
      | nil => simp [lexLt] at h2
      | cons z cs =>
        simp only [lexLt] at h1 h2 ⊢
        split_ifs at h1 h2 ⊢ <;> try omega
        all_goals first
          | rfl
          | (exact ih h1 h2)
          | simp_all

theorem lexLt_ne {a b : List Nat} (h : lexLt a b = true) : a ≠ b := by
  intro hab
  rw [hab, lexLt_irrefl] at h
  exact Bool.false_ne_true h

theorem keysSorted_pairwise (l : List (List Nat)) (h : keysSorted l = true) :
    l.Pairwise (fun a b => lexLt a b = true) := by
  induction l with
  | nil => simp
  | cons a l ih =>
    cases l with
    | nil => simp
    | cons b r =>
      rw [keysSorted, Bool.and_eq_true] at h
      have hp := ih h.2
      refine List.Pairwise.cons ?_ hp
      intro y hy
      rcases List.mem_cons.mp hy with rfl | hy
      · exact h.1
      · exact lexLt_trans h.1 (List.rel_of_pairwise_cons hp hy)

theorem keysSorted_nodup (l : List (List Nat)) (h : keysSorted l = true) : l.Nodup :=
  (keysSorted_pairwise l h).imp fun hlt => lexLt_ne hlt

/-! ## Equations for the mutual bencode definitions -/

theorem specEnc_bint (n : Int) : specEnc (.bint n) = cI :: intRepr n ++ [cE] := rfl
theorem specEnc_bstr (bs : List Nat) :
    specEnc (.bstr bs) = natRepr bs.length ++ cCol :: bs := rfl
theorem specEnc_blist (xs : List BVal) :
    specEnc (.blist xs) = cL :: specEncList xs ++ [cE] := rfl
theorem specEnc_bdict (kvs : List (List Nat × BVal)) :
    specEnc (.bdict kvs) = cD :: specEncDict kvs ++ [cE] := rfl
theorem specEncList_nil : specEncList [] = [] := rfl
theorem specEncList_cons (v : BVal) (vs : List BVal) :
    specEncList (v :: vs) = specEnc v ++ specEncList vs := rfl
theorem specEncDict_nil : specEncDict [] = [] := rfl
theorem specEncDict_cons (k : List Nat) (v : BVal) (kvs : List (List Nat × BVal)) :
    specEncDict ((k, v) :: kvs)
      = (natRepr k.length ++ cCol :: k) ++ specEnc v ++ specEncDict kvs := rfl

theorem pyOf_bint (n : Int) : pyOf (.bint n) = .vint n := rfl
theorem pyOf_bstr (bs : List Nat) : pyOf (.bstr bs) = .vbytes bs := rfl
theorem pyOf_blist (xs : List BVal) : pyOf (.blist xs) = .vlist (pyOfList xs) := rfl
theorem pyOf_bdict (kvs : List (List Nat × BVal)) :
    pyOf (.bdict kvs) = .vdict (pyOfDict kvs) := rfl
theorem pyOfList_nil : pyOfList [] = [] := rfl
theorem pyOfList_cons (v : BVal) (vs : List BVal) :
    pyOfList (v :: vs) = pyOf v :: pyOfList vs := rfl
theorem pyOfDict_nil : pyOfDict [] = [] := rfl
theorem pyOfDict_cons (k : List Nat) (v : BVal) (kvs : List (List Nat × BVal)) :
    pyOfDict ((k, v) :: kvs) = (.vstr k, pyOf v) :: pyOfDict kvs := rfl

theorem wfv_bint (n : Int) : wfv (.bint n) = true := rfl
theorem wfv_bstr (bs : List Nat) : wfv (.bstr bs) = bs.all (· < 256) := rfl
theorem wfv_blist (xs : List BVal) : wfv (.blist xs) = wfvList xs := rfl
theorem wfv_bdict (kvs : List (List Nat × BVal)) :
    wfv (.bdict kvs) = (keysSorted (kvs.map Prod.fst) && wfvDict kvs) := rfl
theorem wfvList_cons (v : BVal) (vs : List BVal) :
    wfvList (v :: vs) = (wfv v && wfvList vs) := rfl
theorem wfvDict_cons (k : List Nat) (v : BVal) (kvs : List (List Nat × BVal)) :
    wfvDict ((k, v) :: kvs) = (k.all (· < 128) && wfv v && wfvDict kvs) := rfl

theorem fuelNeed_bint (n : Int) : fuelNeed (.bint n) = 1 := rfl
theorem fuelNeed_bstr (bs : List Nat) : fuelNeed (.bstr bs) = 1 := rfl
theorem fuelNeed_blist (xs : List BVal) : fuelNeed (.blist xs) = 1 + fuelNeedList xs := rfl
theorem fuelNeed_bdict (kvs : List (List Nat × BVal)) :
    fuelNeed (.bdict kvs) = 1 + fuelNeedDict kvs := rfl
theorem fuelNeedList_nil : fuelNeedList [] = 1 := rfl
theorem fuelNeedList_cons (v : BVal) (vs : List BVal) :
    fuelNeedList (v :: vs) = fuelNeed v + fuelNeedList vs := rfl
theorem fuelNeedDict_nil : fuelNeedDict [] = 1 := rfl
theorem fuelNeedDict_cons (k : List Nat) (v : BVal) (kvs : List (List Nat × BVal)) :
    fuelNeedDict ((k, v) :: kvs) = 1 + fuelNeed v + fuelNeedDict kvs := rfl

theorem fuelNeed_pos (v : BVal) : 1 ≤ fuelNeed v := by
  cases v with
  | bint n => rw [fuelNeed_bint]
  | bstr bs => rw [fuelNeed_bstr]
  | blist xs => rw [fuelNeed_blist]; omega
  | bdict kvs => rw [fuelNeed_bdict]; omega

theorem fuelNeedList_pos (vs : List BVal) : 1 ≤ fuelNeedList vs := by
  cases vs with
  | nil => rw [fuelNeedList_nil]
  | cons v vs =>
    rw [fuelNeedList_cons]
    have := fuelNeed_pos v
    omega

theorem fuelNeedDict_pos (kvs : List (List Nat × BVal)) : 1 ≤ fuelNeedDict kvs := by
  cases kvs with
  | nil => rw [fuelNeedDict_nil]
  | cons kv kvs =>
    obtain ⟨k, v⟩ := kv
    rw [fuelNeedDict_cons]
    omega

/-- The first byte of every conforming encoding exists and is not the
container terminator. -/
theorem specEnc_head (v : BVal) : ∃ h t, specEnc v = h :: t ∧ h ≠ cE := by
  cases v with
  | bint n =>
    exact ⟨cI, intRepr n ++ [cE], by rw [specEnc_bint]; rfl, by simp [cI, cE]⟩
  | bstr bs =>
    cases hr : natRepr bs.length with
    | nil => exact absurd hr (natRepr_ne_nil _)
    | cons h t =>
      have hb := natRepr_bounds (hr ▸ List.mem_cons_self h t)
      exact ⟨h, t ++ cCol :: bs, by rw [specEnc_bstr, hr]; rfl, by simp [cE]; omega⟩
  | blist xs =>
    exact ⟨cL, specEncList xs ++ [cE], by rw [specEnc_blist]; rfl, by simp [cL, cE]⟩
  | bdict kvs =>
    exact ⟨cD, specEncDict kvs ++ [cE], by rw [specEnc_bdict]; rfl, by simp [cD, cE]⟩

theorem getElem_boundary (pre : List Nat) (x : Nat) (tail : List Nat) :
    (pre ++ x :: tail)[pre.length]? = some x := by
  rw [List.getElem?_append_right (le_refl _)]
  simp

theorem drop_boundary (pre A Y : List Nat) :
    (pre ++ (A ++ Y)).drop (pre.length + A.length) = Y := by
  rw [← List.append_assoc, ← List.length_append, List.drop_left]

/-- Main correctness of the decoder on conforming encodings, by strong
induction on the fuel: part one is `decodeImpl` on a single value, parts
two and three are the list and dict loops at an arbitrary position of
the buffer. -/
theorem decodeSpec (fuel : Nat) :
    (∀ v rest, wfv v = true → fuelNeed v ≤ fuel →
      decodeImpl fuel (specEnc v ++ rest) = .ok (pyOf v, (specEnc v).length)) ∧
    (∀ vs pre acc rest, wfvList vs = true → fuelNeedList vs ≤ fuel →
      decodeList fuel (pre ++ (specEncList vs ++ cE :: rest)) pre.length acc
        = .ok (.vlist (acc ++ pyOfList vs), pre.length + (specEncList vs).length + 1)) ∧
    (∀ kvs pre acc rest, wfvDict kvs = true → keysFresh acc kvs →
      fuelNeedDict kvs ≤ fuel →
      decodeDict fuel (pre ++ (specEncDict kvs ++ cE :: rest)) pre.length acc
        = .ok (.vdict (acc ++ pyOfDict kvs), pre.length + (specEncDict kvs).length + 1)) := by
  induction fuel using Nat.strong_induction_on with
  | _ fuel ih =>
  obtain _ | f := fuel
  · refine ⟨?_, ?_, ?_⟩
    · intro v rest _ hf
      have := fuelNeed_pos v
      omega
    · intro vs pre acc rest _ hf
      have := fuelNeedList_pos vs
      omega
    · intro kvs pre acc rest _ _ hf
      have := fuelNeedDict_pos kvs
      omega
  refine ⟨?_, ?_, ?_⟩
  · -- one value
    intro v rest hwf hf
    cases v with
    | bint n =>
      rw [specEnc_bint, pyOf_bint,
        show (cI :: intRepr n ++ [cE]) ++ rest = cI :: intRepr n ++ cE :: rest by simp,
        decodeImpl_intTok]
      simp only [Except.ok.injEq, Prod.mk.injEq, List.cons_append, List.length_append,
        List.length_cons, List.length_nil, true_and]
    | bstr bs =>
      rw [specEnc_bstr, pyOf_bstr,
        show (natRepr bs.length ++ cCol :: bs) ++ rest
            = natRepr bs.length ++ cCol :: (bs ++ rest) by simp,
        decodeImpl_strTok, List.take_left]
      simp only [Except.ok.injEq, Prod.mk.injEq, List.length_append, List.length_cons,
        true_and]
      omega
    | blist xs =>
      rw [specEnc_blist, pyOf_blist,
        show (cL :: specEncList xs ++ [cE]) ++ rest
            = cL :: (specEncList xs ++ cE :: rest) by simp]
      have hstep : decodeImpl (f + 1) (cL :: (specEncList xs ++ cE :: rest))
          = decodeList f (cL :: (specEncList xs ++ cE :: rest)) 1 [] := by
        simp only [decodeImpl, List.isEmpty_cons, Bool.false_eq_true, if_false,
          List.headD_cons, if_neg (show ¬ cL = cI by decide),
          if_neg (show ¬ isDigit cL = true by decide), eq_self_iff_true, if_true]
      rw [hstep]
      have h2 := (ih f (by omega)).2.1 xs [cL] [] rest
        (by rw [wfv_blist] at hwf; exact hwf)
        (by rw [fuelNeed_blist] at hf; omega)
      simp only [List.singleton_append, List.length_cons, List.length_nil,
        List.nil_append] at h2
      rw [h2]
      simp only [Except.ok.injEq, Prod.mk.injEq, List.append_assoc, List.length_append,
        List.length_cons, List.length_nil, true_and]
      omega
    | bdict kvs =>
      rw [wfv_bdict, Bool.and_eq_true] at hwf
      rw [specEnc_bdict, pyOf_bdict,
        show (cD :: specEncDict kvs ++ [cE]) ++ rest
            = cD :: (specEncDict kvs ++ cE :: rest) by simp]
      have hstep : decodeImpl (f + 1) (cD :: (specEncDict kvs ++ cE :: rest))
          = decodeDict f (cD :: (specEncDict kvs ++ cE :: rest)) 1 [] := by
        simp only [decodeImpl, List.isEmpty_cons, Bool.false_eq_true, if_false,
          List.headD_cons, if_neg (show ¬ cD = cI by decide),
          if_neg (show ¬ isDigit cD = true by decide),
          if_neg (show ¬ cD = cL by decide), eq_self_iff_true, if_true]
      rw [hstep]
      have h2 := (ih f (by omega)).2.2 kvs [cD] [] rest hwf.2
        ⟨keysSorted_nodup _ hwf.1, fun kv _ p hp => absurd hp (List.not_mem_nil p)⟩
        (by rw [fuelNeed_bdict] at hf; omega)
      simp only [List.singleton_append, List.length_cons, List.length_nil,
        List.nil_append] at h2
      rw [h2]
      simp only [Except.ok.injEq, Prod.mk.injEq, List.append_assoc, List.length_append,
        List.length_cons, List.length_nil, true_and]
      omega
  · -- the list loop
    intro vs pre acc rest hwf hf
    cases vs with
    | nil =>
      simp only [specEncList_nil, List.nil_append, pyOfList_nil, List.append_nil,
        List.length_nil]
      simp only [decodeList, getElem_boundary, Option.elim, eq_self_iff_true, if_true]
    | cons v vs1 =>
      rw [wfvList_cons, Bool.and_eq_true] at hwf
      rw [fuelNeedList_cons] at hf
      have hfv : fuelNeed v ≤ f := by
        have := fuelNeedList_pos vs1
        omega
      have hfl : fuelNeedList vs1 ≤ f := by
        have := fuelNeed_pos v
        omega
      obtain ⟨h0, t0, hv, hne⟩ := specEnc_head v
      rw [specEncList_cons, pyOfList_cons,
        show (specEnc v ++ specEncList vs1) ++ cE :: rest
            = specEnc v ++ (specEncList vs1 ++ cE :: rest) from List.append_assoc _ _ _]
      have hx : (pre ++ (specEnc v ++ (specEncList vs1 ++ cE :: rest)))[pre.length]?
          = some h0 := by
        rw [hv, List.cons_append]
        exact getElem_boundary pre h0 _
      simp only [decodeList, hx, Option.elim, if_neg hne]
      rw [List.drop_left, (ih f (by omega)).1 v (specEncList vs1 ++ cE :: rest) hwf.1 hfv]
      simp only [ebind]
      have h2 := (ih f (by omega)).2.1 vs1 (pre ++ specEnc v) (acc ++ [pyOf v]) rest
        hwf.2 hfl
      rw [List.append_assoc, List.length_append] at h2
      rw [h2]
      simp only [Except.ok.injEq, Prod.mk.injEq, List.append_assoc, List.singleton_append,
        List.length_append, true_and]
      omega
  · -- the dict loop
    intro kvs pre acc rest hwf hfresh hf
    cases kvs with
    | nil =>
      simp only [specEncDict_nil, List.nil_append, pyOfDict_nil, List.append_nil,
        List.length_nil]
      simp only [decodeDict, getElem_boundary, Option.elim, eq_self_iff_true, if_true]
    | cons kv kvs1 =>
      obtain ⟨k, v⟩ := kv
      rw [wfvDict_cons, Bool.and_eq_true, Bool.and_eq_true] at hwf
      obtain ⟨⟨hka, hwv⟩, hwd⟩ := hwf
      simp only [List.all_eq_true, decide_eq_true_eq] at hka
      obtain ⟨hnodup, hcoll⟩ := hfresh
      rw [List.map_cons] at hnodup
      have hkmem : k ∉ kvs1.map Prod.fst := (List.nodup_cons.mp hnodup).1
      have hnodup1 : (kvs1.map Prod.fst).Nodup := (List.nodup_cons.mp hnodup).2
      rw [fuelNeedDict_cons] at hf
      have hpv := fuelNeed_pos v
      have hpd := fuelNeedDict_pos kvs1
      rw [specEncDict_cons, pyOfDict_cons]
      rw [show ((natRepr k.length ++ cCol :: k) ++ specEnc v ++ specEncDict kvs1)
            ++ cE :: rest
          = (natRepr k.length ++ cCol :: k)
            ++ (specEnc v ++ (specEncDict kvs1 ++ cE :: rest)) by
        simp [List.append_assoc]]
      obtain ⟨hd, td, hrk, hdb1, hdb2⟩ := natRepr_head k.length
      have hdne : ¬ hd = cE := by simp only [cE]; omega
      have hx : ((pre ++ ((natRepr k.length ++ cCol :: k)
          ++ (specEnc v ++ (specEncDict kvs1 ++ cE :: rest)))))[pre.length]?
          = some hd := by
        rw [hrk]
        simp only [List.cons_append, List.append_assoc]
        exact getElem_boundary pre hd _
      simp only [decodeDict, hx, Option.elim, if_neg hdne]
      rw [List.drop_left]
      obtain ⟨f1, rfl⟩ : ∃ f1, f = f1 + 1 := ⟨f - 1, by omega⟩
      have hfv : fuelNeed v ≤ f1 + 1 := by omega
      have hfd : fuelNeedDict kvs1 ≤ f1 + 1 := by omega
      rw [show (natRepr k.length ++ cCol :: k)
            ++ (specEnc v ++ (specEncDict kvs1 ++ cE :: rest))
          = natRepr k.length
            ++ cCol :: (k ++ (specEnc v ++ (specEncDict kvs1 ++ cE :: rest))) by
        simp [List.append_assoc]]
      rw [decodeImpl_strTok f1, List.take_left]
      have hkc : keyConv (.vbytes k) = .ok (.vstr k) := by
        rw [keyConv, utf8Dec_ascii k hka]
      simp only [ebind, hkc]
      rw [show pre.length + ((natRepr k.length).length + 1 + k.length)
          = pre.length + (natRepr k.length ++ cCol :: k).length by
        simp only [List.length_append, List.length_cons]; omega]
      rw [show natRepr k.length ++ cCol :: (k ++ (specEnc v
            ++ (specEncDict kvs1 ++ cE :: rest)))
          = (natRepr k.length ++ cCol :: k)
            ++ (specEnc v ++ (specEncDict kvs1 ++ cE :: rest)) by
        simp [List.append_assoc]]
      rw [show pre ++ ((natRepr k.length ++ cCol :: k)
            ++ (specEnc v ++ (specEncDict kvs1 ++ cE :: rest)))
          = (pre ++ (natRepr k.length ++ cCol :: k))
            ++ (specEnc v ++ (specEncDict kvs1 ++ cE :: rest)) by
        simp [List.append_assoc]]
      rw [show pre.length + (natRepr k.length ++ cCol :: k).length
          = (pre ++ (natRepr k.length ++ cCol :: k)).length by
        simp [List.length_append]]
      rw [List.drop_left,
        (ih (f1 + 1) (by omega)).1 v (specEncDict kvs1 ++ cE :: rest) hwv hfv]
      have hins : dictIns acc (.vstr k) (pyOf v) = .ok (acc ++ [(.vstr k, pyOf v)]) := by
        have h0 : dictIns acc (.vstr k) (pyOf v)
            = .ok (dictInsert acc (.vstr k) (pyOf v)) := rfl
        rw [h0, dictInsert_append acc _ _
          (fun p hp => hcoll (k, v) (List.mem_cons_self _ _) p hp)]
      simp only [ebind, hins]
      have hfresh1 : keysFresh (acc ++ [(.vstr k, pyOf v)]) kvs1 := by
        refine ⟨hnodup1, ?_⟩
        intro kv hkv p hp
        rcases List.mem_append.mp hp with hp1 | hp1
        · exact hcoll kv (List.mem_cons_of_mem _ hkv) p hp1
        · rcases List.mem_singleton.mp hp1 with rfl
          rw [pyKeyEq_vstr]
          rw [beq_eq_false_iff_ne]
          intro hk
          exact hkmem (hk ▸ List.mem_map_of_mem Prod.fst hkv)
      have h2 := (ih (f1 + 1) (by omega)).2.2 kvs1
        ((pre ++ (natRepr k.length ++ cCol :: k)) ++ specEnc v)
        (acc ++ [(.vstr k, pyOf v)]) rest hwd hfresh1 hfd
      rw [List.append_assoc, List.length_append] at h2
      rw [h2]
      simp only [Except.ok.injEq, Prod.mk.injEq, List.append_assoc,
        List.singleton_append, List.length_append, List.length_cons, true_and]
      omega


/-! ## Fuel bound and encoder correspondence -/

theorem encode_vint (n : Int) :
    encode_bencode (.vint n) = .ok (cI :: intRepr n ++ [cE]) := rfl
theorem encode_vbytes (bs : List Nat) :
    encode_bencode (.vbytes bs) = .ok (natRepr bs.length ++ cCol :: bs) := rfl
theorem encode_vstr (cs : List Nat) :
    encode_bencode (.vstr cs)
      = (utf8Enc cs).elim (.error .unicodeEncodeError) fun bs =>
          .ok (natRepr cs.length ++ cCol :: bs) := rfl
theorem encode_vlist (xs : List PyVal) :
    encode_bencode (.vlist xs)
      = ebind (encodeList xs) fun body => .ok (cL :: body ++ [cE]) := rfl
theorem encode_vdict (kvs : List (PyVal × PyVal)) :
    encode_bencode (.vdict kvs)
      = ebind (encodeDict kvs) fun body => .ok (cD :: body ++ [cE]) := rfl
theorem encodeList_nil : encodeList [] = .ok [] := rfl
theorem encodeList_cons (v : PyVal) (vs : List PyVal) :
    encodeList (v :: vs)
      = ebind (encode_bencode v) fun b =>
          ebind (encodeList vs) fun bs => .ok (b ++ bs) := rfl
theorem encodeDict_nil : encodeDict [] = .ok [] := rfl
theorem encodeDict_cons (k v : PyVal) (kvs : List (PyVal × PyVal)) :
    encodeDict ((k, v) :: kvs)
      = ebind (encode_bencode k) fun bk =>
          ebind (encode_bencode v) fun bv =>
            ebind (encodeDict kvs) fun bs => .ok (bk ++ bv ++ bs) := rfl

theorem fuelNeed_le_size (n : Nat) :
    (∀ v : BVal, sizeOf v < n → fuelNeed v ≤ (specEnc v).length) ∧
    (∀ vs : List BVal, sizeOf vs < n → fuelNeedList vs ≤ (specEncList vs).length + 1) ∧
    (∀ kvs : List (List Nat × BVal), sizeOf kvs < n →
      fuelNeedDict kvs ≤ (specEncDict kvs).length + 1) := by
  induction n using Nat.strong_induction_on with
  | _ n ih =>
  refine ⟨?_, ?_, ?_⟩
  · intro v hn
    cases v with
    | bint m =>
      rw [fuelNeed_bint, specEnc_bint]
      simp
    | bstr bs =>
      rw [fuelNeed_bstr, specEnc_bstr]
      simp
      omega
    | blist xs =>
      have hx : sizeOf xs < sizeOf (BVal.blist xs) := by
        simp
      have h1 := (ih (sizeOf (BVal.blist xs)) hn).2.1 xs hx
      rw [fuelNeed_blist, specEnc_blist]
      simp only [List.length_cons, List.length_append, List.length_nil]
      omega
    | bdict kvs =>
      have hx : sizeOf kvs < sizeOf (BVal.bdict kvs) := by
        simp
      have h1 := (ih (sizeOf (BVal.bdict kvs)) hn).2.2 kvs hx
      rw [fuelNeed_bdict, specEnc_bdict]
      simp only [List.length_cons, List.length_append, List.length_nil]
      omega
  · intro vs hn
    cases vs with
    | nil =>
      rw [fuelNeedList_nil, specEncList_nil]
      simp
    | cons v vs1 =>
      have hv : sizeOf v < sizeOf (v :: vs1) := by
        simp
        omega
      have hvs : sizeOf vs1 < sizeOf (v :: vs1) := by
        simp
      have h1 := (ih (sizeOf (v :: vs1)) hn).1 v hv
      have h2 := (ih (sizeOf (v :: vs1)) hn).2.1 vs1 hvs
      rw [fuelNeedList_cons, specEncList_cons]
      simp only [List.length_append]
      omega
  · intro kvs hn
    cases kvs with
    | nil =>
      rw [fuelNeedDict_nil, specEncDict_nil]
      simp
    | cons kv kvs1 =>
      obtain ⟨k, v⟩ := kv
      have hv : sizeOf v < sizeOf ((k, v) :: kvs1) := by
        simp
        omega
      have hvs : sizeOf kvs1 < sizeOf ((k, v) :: kvs1) := by
        simp
      have h1 := (ih (sizeOf ((k, v) :: kvs1)) hn).1 v hv
      have h2 := (ih (sizeOf ((k, v) :: kvs1)) hn).2.2 kvs1 hvs
      rw [fuelNeedDict_cons, specEncDict_cons]
      have hk : 1 ≤ (natRepr k.length).length := by
        cases hr : natRepr k.length with
        | nil => exact absurd hr (natRepr_ne_nil _)
        | cons a t => simp
      simp only [List.length_append, List.length_cons]
      omega

theorem fuelNeed_le (v : BVal) : fuelNeed v ≤ (specEnc v).length :=
  (fuelNeed_le_size (sizeOf v + 1)).1 v (Nat.lt_succ_self _)

theorem encSpec (n : Nat) :
    (∀ v : BVal, sizeOf v < n → wfv v = true →
      encode_bencode (pyOf v) = .ok (specEnc v)) ∧
    (∀ vs : List BVal, sizeOf vs < n → wfvList vs = true →
      encodeList (pyOfList vs) = .ok (specEncList vs)) ∧
    (∀ kvs : List (List Nat × BVal), sizeOf kvs < n → wfvDict kvs = true →
      encodeDict (pyOfDict kvs) = .ok (specEncDict kvs)) := by
  induction n using Nat.strong_induction_on with
  | _ n ih =>
  refine ⟨?_, ?_, ?_⟩
  · intro v hn hwf
    cases v with
    | bint m => rw [pyOf_bint, encode_vint, specEnc_bint]
    | bstr bs => rw [pyOf_bstr, encode_vbytes, specEnc_bstr]
    | blist xs =>
      have hx : sizeOf xs < sizeOf (BVal.blist xs) := by
        simp
      rw [wfv_blist] at hwf
      have h1 := (ih (sizeOf (BVal.blist xs)) hn).2.1 xs hx hwf
      rw [pyOf_blist, encode_vlist, h1]
      rw [specEnc_blist]
      rfl
    | bdict kvs =>
      have hx : sizeOf kvs < sizeOf (BVal.bdict kvs) := by
        simp
      rw [wfv_bdict, Bool.and_eq_true] at hwf
      have h1 := (ih (sizeOf (BVal.bdict kvs)) hn).2.2 kvs hx hwf.2
      rw [pyOf_bdict, encode_vdict, h1]
      rw [specEnc_bdict]
      rfl
  · intro vs hn hwf
    cases vs with
    | nil => rw [pyOfList_nil, encodeList_nil, specEncList_nil]
    | cons v vs1 =>
      have hv : sizeOf v < sizeOf (v :: vs1) := by
        simp
        omega
      have hvs : sizeOf vs1 < sizeOf (v :: vs1) := by
        simp
      rw [wfvList_cons, Bool.and_eq_true] at hwf
      have h1 := (ih (sizeOf (v :: vs1)) hn).1 v hv hwf.1
      have h2 := (ih (sizeOf (v :: vs1)) hn).2.1 vs1 hvs hwf.2
      rw [pyOfList_cons, encodeList_cons, h1, h2, specEncList_cons]
      rfl
  · intro kvs hn hwf
    cases kvs with
    | nil => rw [pyOfDict_nil, encodeDict_nil, specEncDict_nil]
    | cons kv kvs1 =>
      obtain ⟨k, v⟩ := kv
      have hv : sizeOf v < sizeOf ((k, v) :: kvs1) := by
        simp
        omega
      have hvs : sizeOf kvs1 < sizeOf ((k, v) :: kvs1) := by
        simp
      rw [wfvDict_cons, Bool.and_eq_true, Bool.and_eq_true] at hwf
      obtain ⟨⟨hka, hwv⟩, hwd⟩ := hwf
      simp only [List.all_eq_true, decide_eq_true_eq] at hka
      have h1 := (ih (sizeOf ((k, v) :: kvs1)) hn).1 v hv hwv
      have h2 := (ih (sizeOf ((k, v) :: kvs1)) hn).2.2 kvs1 hvs hwd
      have hk : encode_bencode (.vstr k) = .ok (natRepr k.length ++ cCol :: k) := by
        rw [encode_vstr, utf8Enc_ascii k hka]
        rfl
      rw [pyOfDict_cons, encodeDict_cons, hk, h1, h2, specEncDict_cons]
      rfl

theorem encode_pyOf (v : BVal) (h : wfv v = true) :
    encode_bencode (pyOf v) = .ok (specEnc v) :=
  (encSpec (sizeOf v + 1)).1 v (Nat.lt_succ_self _) h

theorem decode_specEnc (v : BVal) (h : wfv v = true) :
    decode_bencode (specEnc v) = .ok (pyOf v) := by
  unfold decode_bencode
  have hdec := (decodeSpec ((specEnc v).length + 1)).1 v [] h
    (le_trans (fuelNeed_le v) (Nat.le_succ _))
  rw [List.append_nil] at hdec
  rw [hdec]
  rfl


/-! ## Claim C1 -/

/-- Claim C1 (counterexample): the round trip fails on a well-formed
output of the conforming encoder.  For the single-key dictionary with
the valid-UTF-8 but non-ASCII key `0xC3 0xA9` ("é"), the encoder output
is `d2:ée` ++ `i0e` framing; `decode_bencode` turns the key into a
one-code-point `str`, and `encode_bencode` re-encodes it with the
*character-count* length prefix `1`, so the bytes change. -/
theorem C1_counterexample :
    specEnc (.bdict [([195, 169], .bint 0)])
        = [100, 50, 58, 195, 169, 105, 48, 101, 101] ∧
    keysSorted [[195, 169]] = true ∧
    bencRoundtrip (specEnc (.bdict [([195, 169], .bint 0)]))
        = .ok [100, 49, 58, 195, 169, 105, 48, 101, 101] ∧
    bencRoundtrip (specEnc (.bdict [([195, 169], .bint 0)]))
        ≠ .ok (specEnc (.bdict [([195, 169], .bint 0)])) := by
  refine ⟨rfl, rfl, rfl, ?_⟩
  decide

/-- Claim C1 (amended): for every well-formed bencoded byte string
produced by a conforming encoder that emits dictionary keys in sorted
order *and whose dictionary keys are ASCII byte strings*,
`encode_bencode (decode_bencode b) = b`.  Byte-string *values* may be
arbitrary (non-UTF-8) bytes; only keys must be ASCII, because decoding
converts keys to `str` via UTF-8 (raising `UnicodeDecodeError` on
invalid bytes) and re-encoding uses the code-point count as the length
prefix. -/
theorem C1_roundtrip (v : BVal) (h : wfv v = true) :
    bencRoundtrip (specEnc v) = .ok (specEnc v) := by
  unfold bencRoundtrip
  rw [decode_specEnc v h]
  exact encode_pyOf v h

/-- Claim C1 (witness): the round trip on the encoder output of
`{cow: moo, spam: eggs}` (scenario S3 of the spec). -/
theorem C1_roundtrip_witness :
    wfv (.bdict [([99, 111, 119], .bstr [109, 111, 111]),
                 ([115, 112, 97, 109], .bstr [101, 103, 103, 115])]) = true ∧
    bencRoundtrip (specEnc (.bdict [([99, 111, 119], .bstr [109, 111, 111]),
                 ([115, 112, 97, 109], .bstr [101, 103, 103, 115])]))
      = .ok (specEnc (.bdict [([99, 111, 119], .bstr [109, 111, 111]),
                 ([115, 112, 97, 109], .bstr [101, 103, 103, 115])])) :=
  ⟨rfl, C1_roundtrip (.bdict [([99, 111, 119], .bstr [109, 111, 111]),
                 ([115, 112, 97, 109], .bstr [101, 103, 103, 115])]) rfl⟩

/-! ## Claim C3 -/

/-- Claim C3 (counterexample): decoding `b"3:ab"`, whose declared length
3 exceeds the 2 remaining bytes, does *not* fail with a malformed-input
error: Python's clamping slice makes `_decode_bencode_impl` return the
truncated bytes `b"ab"`. -/
theorem C3_counterexample :
    decode_bencode [51, 58, 97, 98] = .ok (.vbytes [97, 98]) := rfl

/-- Claim C3 (amended): a byte-string token decodes successfully even
when its declared length exceeds the remaining input, yielding the
remaining bytes truncated by Python slice semantics: for every declared
length `L` and payload `bs`, decode of `<L>:<bs>` returns
`bs.take L` — so `b"5:hello"` yields `hello` and `b"3:ab"` yields
`b"ab"` rather than an error. -/
theorem C3_string_token (L : Nat) (bs : List Nat) :
    decode_bencode (natRepr L ++ cCol :: bs) = .ok (.vbytes (bs.take L)) := by
  unfold decode_bencode
  rw [decodeImpl_strTok (natRepr L ++ cCol :: bs).length L bs]
  rfl


/-! ## Claim C2 -/

set_option maxRecDepth 4000 in
/-- Claim C2 (counterexample): `_Downloader.download` computes no hash at
all.  A one-block piece whose payload is the byte `a` is written to the
output file even though its SHA-1 digest is not the expected hash
(twenty zero bytes here): the write is unconditional. -/
theorem C2_counterexample :
    downloadFinish [⟨0, 0, [97]⟩] 1 [] = .ok [97] ∧
    sha1 [97] ≠ List.replicate 20 0 := by
  refine ⟨rfl, ?_⟩
  decide

/-- Claim C2 (amended): after all blocks of a piece are fetched, the
blocks are sorted by ascending `begin` and the concatenation of their
payloads is written to the output file with *no* SHA-1 verification: the
expected piece hash is never consulted, and the bytes are written even
when their digest differs from it; nothing is worker-fatal and nothing
is requeued at this point. -/
theorem C2_no_hash_check (blocks : List PieceMsgM) (nBlocks : Nat)
    (errors expected : List Nat)
    (hn : nBlocks ≤ blocks.length)
    (hmismatch : sha1 (assembleBlocks blocks) ≠ expected) :
    downloadFinish blocks nBlocks errors = .ok (assembleBlocks blocks) ∧
    (blocks.insertionSort fun a b => a.begin ≤ b.begin).Pairwise
      (fun a b => a.begin ≤ b.begin) ∧
    ((blocks.insertionSort fun a b => a.begin ≤ b.begin).Perm blocks) := by
  refine ⟨?_, ?_, List.perm_insertionSort _ _⟩
  · unfold downloadFinish
    rw [if_neg (by omega)]
  · haveI : IsTotal PieceMsgM (fun a b => a.begin ≤ b.begin) :=
      ⟨fun a b => Nat.le_total _ _⟩
    haveI : IsTrans PieceMsgM (fun a b => a.begin ≤ b.begin) :=
      ⟨fun _ _ _ h1 h2 => Nat.le_trans h1 h2⟩
    exact List.sorted_insertionSort _ _

set_option maxRecDepth 4000 in
/-- Claim C2 (witness): a two-block piece, blocks received out of order,
expected hash twenty zero bytes. -/
theorem C2_no_hash_check_witness :
    downloadFinish [⟨0, 16384, [98]⟩, ⟨0, 0, [97]⟩] 2 []
        = .ok (assembleBlocks [⟨0, 16384, [98]⟩, ⟨0, 0, [97]⟩]) ∧
    (([⟨0, 16384, [98]⟩, ⟨0, 0, [97]⟩] : List PieceMsgM).insertionSort
        fun a b => a.begin ≤ b.begin).Pairwise (fun a b => a.begin ≤ b.begin) ∧
    ((([⟨0, 16384, [98]⟩, ⟨0, 0, [97]⟩] : List PieceMsgM).insertionSort
        fun a b => a.begin ≤ b.begin).Perm [⟨0, 16384, [98]⟩, ⟨0, 0, [97]⟩]) :=
  C2_no_hash_check [⟨0, 16384, [98]⟩, ⟨0, 0, [97]⟩] 2 [] (List.replicate 20 0)
    (by decide) (by decide)


/-! ## Wire-protocol helper lemmas -/

theorem drop_len_plus (A B : List Nat) (k : Nat) :
    (A ++ B).drop (A.length + k) = B.drop k := by
  rw [← List.drop_drop, List.drop_left]

theorem readMsg_unknown (s0 s1 s2 s3 id : Nat) (rest : List Nat)
    (h : id ≠ 1 ∧ id ≠ 2 ∧ id ≠ 5 ∧ id ≠ 6 ∧ id ≠ 7) :
    readMsg (s0 :: s1 :: s2 :: s3 :: id :: rest) = .error (.unknownMessage id) := by
  simp only [readMsg]
  have h5 : (s0 :: s1 :: s2 :: s3 :: id :: rest).take 5 = [s0, s1, s2, s3, id] := rfl
  rw [h5]
  simp only [List.length_cons, List.length_nil, List.getD_cons_succ, List.getD_cons_zero]
  rw [if_neg (by omega), if_pos h]

theorem readMsg_unchoke (rest : List Nat) :
    readMsg (0 :: 0 :: 0 :: 1 :: 1 :: rest) = .ok (.unchoke, rest) := rfl

theorem readMsg_interested (rest : List Nat) :
    readMsg (0 :: 0 :: 0 :: 1 :: 2 :: rest) = .ok (.interested, rest) := rfl

theorem readMsg_have_frame (rest : List Nat) :
    readMsg (0 :: 0 :: 0 :: 5 :: 4 :: rest) = .error (.unknownMessage 4) := rfl

theorem readMsg_request_frame (rest : List Nat) :
    readMsg (0 :: 0 :: 0 :: 13 :: 6 :: rest) = .error .notImplementedError := rfl

theorem beNat_size (n : Nat) : beNat [0, 0, 0, n] = n := by
  simp [beNat]

theorem readMsg_bitfield (pl X : List Nat) :
    readMsg (0 :: 0 :: 0 :: (pl.length + 1) :: 5 :: (pl ++ X)) = .ok (.bitfield, X) := by
  simp only [readMsg]
  have h5 : (0 :: 0 :: 0 :: (pl.length + 1) :: 5 :: (pl ++ X)).take 5
      = [0, 0, 0, pl.length + 1, 5] := rfl
  have hdrop : (0 :: 0 :: 0 :: (pl.length + 1) :: 5 :: (pl ++ X)).drop 5 = pl ++ X := rfl
  rw [h5, hdrop]
  have h4 : ([0, 0, 0, pl.length + 1, 5] : List Nat).take 4 = [0, 0, 0, pl.length + 1] := rfl
  rw [h4, beNat_size]
  simp only [List.length_cons, List.length_nil, List.getD_cons_succ, List.getD_cons_zero,
    if_true, if_false]
  simp only [if_neg (show ¬ pl.length + 1 = 0 by omega)]
  rw [Nat.add_sub_cancel, List.drop_left]
  norm_num

theorem readMsg_piece (pl X : List Nat) (h8 : 8 ≤ pl.length) :
    readMsg (0 :: 0 :: 0 :: (pl.length + 1) :: 7 :: (pl ++ X))
      = .ok (.piece (beNat (pl.take 4)) (beNat ((pl.drop 4).take 4)) (pl.drop 8), X) := by
  simp only [readMsg]
  have h5 : (0 :: 0 :: 0 :: (pl.length + 1) :: 7 :: (pl ++ X)).take 5
      = [0, 0, 0, pl.length + 1, 7] := rfl
  have hdrop : (0 :: 0 :: 0 :: (pl.length + 1) :: 7 :: (pl ++ X)).drop 5 = pl ++ X := rfl
  rw [h5, hdrop]
  have h4 : ([0, 0, 0, pl.length + 1, 7] : List Nat).take 4 = [0, 0, 0, pl.length + 1] := rfl
  rw [h4, beNat_size]
  simp only [List.length_cons, List.length_nil, List.getD_cons_succ, List.getD_cons_zero,
    if_true, if_false]
  simp only [if_neg (show ¬ pl.length + 1 = 0 by omega)]
  rw [Nat.add_sub_cancel]
  simp only [List.take_left, List.drop_left]
  norm_num
  omega


/-! ## Claim C4 -/

/-- Claim C4 (counterexample): the received handshake carries info hash
`20 × 0x01` while the local torrent's is `20 × 0x09`, yet the handshake
step succeeds and hands the peer id to the caller: the received
`info_hash` is never compared with the local one. -/
theorem C4_counterexample :
    recvHandshake (19 :: (PROTO ++ (List.replicate 8 0 ++ (List.replicate 20 1
        ++ List.replicate 20 2))))
      = .ok ⟨19, PROTO, List.replicate 20 1, List.replicate 20 2⟩ ∧
    handshakeStep (List.replicate 20 9) (19 :: (PROTO ++ (List.replicate 8 0
        ++ (List.replicate 20 1 ++ List.replicate 20 2))))
      = .ok (List.replicate 20 2) ∧
    (List.replicate 20 1 : List Nat) ≠ List.replicate 20 9 := by
  refine ⟨rfl, rfl, by decide⟩

/-- Claim C4 (amended): the receiver reads exactly 68 bytes — a short
read fails with the connection error — and verifies `pstrlen = 19` and
`pstr = "BitTorrent protocol"`, failing the assertion otherwise; on a
well-formed handshake it returns the peer id to the caller.  The
received info hash is *not* compared with the local torrent's: the
result is the same for every `localH`. -/
theorem C4_handshake (stream localH pad ih pid rest : List Nat) :
    (stream.length < 68 → recvHandshake stream = .error .connectionError) ∧
    (∀ b tail, b ≠ 19 → 68 ≤ (b :: tail).length →
      recvHandshake (b :: tail) = .error .assertionError) ∧
    (pad.length = 8 → ih.length = 20 → pid.length = 20 →
      handshakeStep localH (19 :: (PROTO ++ (pad ++ (ih ++ (pid ++ rest)))))
        = .ok pid) := by
  refine ⟨?_, ?_, ?_⟩
  · intro h
    simp only [recvHandshake]
    rw [if_pos (by simp [List.length_take]; omega)]
  · intro b tail hb hlen
    have hdata : (b :: tail).take 68 = b :: tail.take 67 := rfl
    simp only [recvHandshake, hdata, List.length_cons, List.length_take,
      List.getD_cons_zero]
    rw [if_neg (by simp at hlen; omega), if_pos hb]
  · intro hpad hih hpid
    have hsplit : 19 :: (PROTO ++ (pad ++ (ih ++ (pid ++ rest))))
        = (19 :: (PROTO ++ (pad ++ (ih ++ pid)))) ++ rest := by simp
    have hlen : (19 :: (PROTO ++ (pad ++ (ih ++ pid)))).length = 68 := by
      simp [PROTO, hpad, hih, hpid]
    have htake : (19 :: (PROTO ++ (pad ++ (ih ++ (pid ++ rest))))).take 68
        = 19 :: (PROTO ++ (pad ++ (ih ++ pid))) := by
      rw [hsplit, ← hlen, List.take_left]
    have hpstr : ((19 :: (PROTO ++ (pad ++ (ih ++ pid)))).drop 1).take 19 = PROTO := by
      rw [List.drop_succ_cons, List.drop_zero,
        show (19:Nat) = PROTO.length from rfl, List.take_left]
    have hihs : ((19 :: (PROTO ++ (pad ++ (ih ++ pid)))).drop 28).take 20 = ih := by
      rw [List.drop_succ_cons,
        show (27:Nat) = PROTO.length + 8 from rfl, drop_len_plus,
        show (8:Nat) = pad.length + 0 by omega, drop_len_plus, List.drop_zero,
        ← hih, List.take_left]
    have hpids : ((19 :: (PROTO ++ (pad ++ (ih ++ pid)))).drop 48).take 20 = pid := by
      rw [List.drop_succ_cons,
        show (47:Nat) = PROTO.length + 28 from rfl, drop_len_plus,
        show (28:Nat) = pad.length + 20 by omega, drop_len_plus]
      nth_rewrite 2 [show (20:Nat) = ih.length + 0 by omega]
      rw [drop_len_plus, List.drop_zero, ← hpid, List.take_length]
    simp only [handshakeStep, recvHandshake, htake, hlen, List.getD_cons_zero,
      hpstr, hihs, hpids]
    norm_num [wbind]

/-- Claim C4 (witness): a 3-byte stream is a short read; a stream whose
first byte is 7 fails the pstrlen assert; a well-formed handshake with
a different local hash still returns the peer id. -/
theorem C4_handshake_witness :
    recvHandshake [1, 2, 3] = .error .connectionError ∧
    recvHandshake (7 :: List.replicate 67 0) = .error .assertionError ∧
    handshakeStep [3] (19 :: (PROTO ++ (List.replicate 8 0
        ++ (List.replicate 20 1 ++ (List.replicate 20 2 ++ [])))))
      = .ok (List.replicate 20 2) :=
  ⟨(C4_handshake [1, 2, 3] [] [] [] [] []).1 (by decide),
   (C4_handshake [] [] [] [] [] []).2.1 7 (List.replicate 67 0) (by decide) (by decide),
   (C4_handshake [] [3] (List.replicate 8 0) (List.replicate 20 1)
      (List.replicate 20 2) []).2.2 (by decide) (by decide) (by decide)⟩

/-! ## Claim C5 -/

/-- Claim C5 (counterexample): a Have message (id 4, here announcing
piece 1) is *not* tolerated: `_MSG_CLASS_MAP` has no entry for id 4, so
`read_msg` fails with the unknown-message error. -/
theorem C5_counterexample :
    readMsg [0, 0, 0, 5, 4, 0, 0, 0, 1] = .error (.unknownMessage 4) := rfl

/-- Claim C5 (amended): the recognised ids are `{1, 2, 5, 6, 7}` —
id 4 (Have) is not among them.  `read_msg` fails with `UnknownMessage`
exactly when the id lies outside `{1, 2, 5, 6, 7}`; it succeeds for
Unchoke, Interested, Bitfield and Piece frames, and fails with
`NotImplementedError` (not `UnknownMessage`) for id 6, because
`RequestMsg._unpack_payload` is unimplemented. -/
theorem C5_read_msg (s0 s1 s2 s3 id : Nat) (rest : List Nat) :
    ((readMsg (s0 :: s1 :: s2 :: s3 :: id :: rest) = .error (.unknownMessage id))
        ↔ (id ≠ 1 ∧ id ≠ 2 ∧ id ≠ 5 ∧ id ≠ 6 ∧ id ≠ 7)) ∧
    (readMsg (0 :: 0 :: 0 :: 5 :: 4 :: rest) = .error (.unknownMessage 4)) ∧
    (readMsg (0 :: 0 :: 0 :: 1 :: 1 :: rest) = .ok (.unchoke, rest)) ∧
    (readMsg (0 :: 0 :: 0 :: 1 :: 2 :: rest) = .ok (.interested, rest)) ∧
    (∀ pl X, readMsg (0 :: 0 :: 0 :: (pl.length + 1) :: 5 :: (pl ++ X))
        = .ok (.bitfield, X)) ∧
    (readMsg (0 :: 0 :: 0 :: 13 :: 6 :: rest) = .error .notImplementedError) ∧
    (∀ pl X, 8 ≤ pl.length →
      readMsg (0 :: 0 :: 0 :: (pl.length + 1) :: 7 :: (pl ++ X))
        = .ok (.piece (beNat (pl.take 4)) (beNat ((pl.drop 4).take 4)) (pl.drop 8), X)) := by
  refine ⟨⟨?_, readMsg_unknown s0 s1 s2 s3 id rest⟩, readMsg_have_frame rest,
    readMsg_unchoke rest, readMsg_interested rest, readMsg_bitfield,
    readMsg_request_frame rest, readMsg_piece⟩
  intro h
  by_contra hmem
  have hid : id = 1 ∨ id = 2 ∨ id = 5 ∨ id = 6 ∨ id = 7 := by omega
  have h5 : (s0 :: s1 :: s2 :: s3 :: id :: rest).take 5 = [s0, s1, s2, s3, id] := rfl
  rcases hid with rfl | rfl | rfl | rfl | rfl <;>
    (simp only [readMsg, h5, List.length_cons, List.length_nil, List.getD_cons_succ,
      List.getD_cons_zero] at h; norm_num at h) <;>
    (try split_ifs at h) <;> simp_all

/-- Claim C5 (witness): the iff and the frame readers evaluated on
concrete frames (id 3 is unknown, a 1-byte bitfield and a 9-byte piece
payload succeed). -/
theorem C5_read_msg_witness :
    (readMsg [0, 0, 0, 1, 3] = .error (.unknownMessage 3)) ∧
    readMsg (0 :: 0 :: 0 :: (([9] : List Nat).length + 1) :: 5 :: ([9] ++ []))
      = .ok (.bitfield, []) ∧
    readMsg (0 :: 0 :: 0 :: (([0,0,0,2,0,0,0,0,7] : List Nat).length + 1) :: 7
        :: ([0,0,0,2,0,0,0,0,7] ++ []))
      = .ok (.piece 2 0 [7], []) := by
  refine ⟨(C5_read_msg 0 0 0 1 3 []).1.mpr (by omega), ?_, ?_⟩
  · exact (C5_read_msg 0 0 0 0 0 []).2.2.2.2.1 [9] []
  · have h := (C5_read_msg 0 0 0 0 0 []).2.2.2.2.2.2 [0,0,0,2,0,0,0,0,7] [] (by decide)
    simpa using h

/-! ## Claim C6 -/

/-- Claim C6 (counterexample): after the Bitfield, a Have message
arrives before the Unchoke.  The warm-up does not tolerate it — there is
no read-until-Unchoke loop, only a single read asserted to be Unchoke —
and the connection set-up fails with the unknown-message error instead
of becoming ready. -/
theorem C6_counterexample :
    warmup ([0, 0, 0, 1, 5] ++ ([0, 0, 0, 5, 4, 0, 0, 0, 9] ++ [0, 0, 0, 1, 1]))
      = .error (.unknownMessage 4) := rfl

/-- Claim C6 (amended): after the initial Bitfield is received and
Interested is sent, exactly one further message is read and asserted to
be an Unchoke; nothing is skipped.  An interleaved Have fails the
warm-up with `UnknownMessage 4`; a keep-alive (length 0) is misframed —
`read_msg` always consumes a 5-byte header, so the keep-alive's four
zero bytes plus the next frame's first byte parse as id 0 and fail with
`UnknownMessage 0`.  Only an immediate Bitfield-then-Unchoke sequence
reaches the ready state. -/
theorem C6_warmup (pl rest : List Nat) :
    warmup (0 :: 0 :: 0 :: (pl.length + 1) :: 5 :: (pl ++ (0 :: 0 :: 0 :: 1 :: 1 :: rest)))
      = .ok rest ∧
    (∀ plHave r2, plHave.length = 4 →
      warmup (0 :: 0 :: 0 :: (pl.length + 1) :: 5
          :: (pl ++ (0 :: 0 :: 0 :: 5 :: 4 :: (plHave ++ r2))))
        = .error (.unknownMessage 4)) ∧
    warmup (0 :: 0 :: 0 :: (pl.length + 1) :: 5
        :: (pl ++ (0 :: 0 :: 0 :: 0 :: (0 :: 0 :: 0 :: 1 :: 1 :: rest))))
      = .error (.unknownMessage 0) := by
  refine ⟨?_, ?_, ?_⟩
  · simp only [warmup, readMsg_bitfield, wbind, readMsg_unchoke]
    norm_num
  · intro plHave r2 hlen
    simp only [warmup, readMsg_bitfield, wbind, readMsg_have_frame]
    norm_num [wbind]
  · simp only [warmup, readMsg_bitfield, wbind,
      readMsg_unknown 0 0 0 0 0 (0 :: 0 :: 1 :: 1 :: rest) (by omega)]
    norm_num [wbind]

/-- Claim C6 (witness): a 1-byte bitfield followed immediately by an
Unchoke yields ready; with a 4-byte Have in between the warm-up fails. -/
theorem C6_warmup_witness :
    warmup (0 :: 0 :: 0 :: (([6] : List Nat).length + 1) :: 5
        :: ([6] ++ (0 :: 0 :: 0 :: 1 :: 1 :: [7, 7]))) = .ok [7, 7] ∧
    warmup (0 :: 0 :: 0 :: (([6] : List Nat).length + 1) :: 5
        :: ([6] ++ (0 :: 0 :: 0 :: 5 :: 4 :: ([0, 0, 0, 2] ++ [0, 0, 0, 1, 1]))))
      = .error (.unknownMessage 4) :=
  ⟨(C6_warmup [6] [7, 7]).1, (C6_warmup [6] [7, 7]).2.1 [0, 0, 0, 2] [0, 0, 0, 1, 1] rfl⟩

/-! ## Claim C10 -/

/-- Claim C10: `get_blocks` on a connection that is not ready — it was
constructed with `only_handshake=True`, or it has been closed — raises
`RuntimeError("Can't get parts when not ready")` before any `Request`
message is written to the wire (the sent-request list is empty). -/
theorem C10_not_ready (c : ConnM) (reqs : List RequestM) (stream s2 lh : List Nat) :
    (c.ready = false → getBlocks c reqs stream = (.error .notReady, [])) ∧
    (∀ cm rest2, connInit true lh s2 = .ok (cm, rest2) → cm.ready = false) ∧
    (closeConn c).ready = false := by
  refine ⟨?_, ?_, rfl⟩
  · intro h
    simp [getBlocks, h]
  · intro cm rest2 h
    simp only [connInit] at h
    cases hh : handshakeStep lh s2 with
    | error e =>
      rw [hh] at h
      simp [wbind] at h
    | ok pid =>
      rw [hh] at h
      simp only [wbind, if_true] at h
      have h2 := (Prod.mk.injEq _ _ _ _).mp (Except.ok.inj h)
      rw [← h2.1]

/-- Claim C10 (witness): a handshake-only connection against a valid
68-byte handshake stream is not ready, and `get_blocks` on it errors
without wire traffic. -/
theorem C10_not_ready_witness :
    ((⟨false⟩ : ConnM).ready = false → True) ∧
    getBlocks ⟨false⟩ [⟨0, 0, 16384⟩] [] = (.error .notReady, []) ∧
    (∀ cm rest2,
      connInit true (List.replicate 20 9) (19 :: (PROTO ++ (List.replicate 8 0
          ++ (List.replicate 20 1 ++ List.replicate 20 2)))) = .ok (cm, rest2) →
      cm.ready = false) ∧
    (closeConn ⟨true⟩).ready = false := by
  refine ⟨fun _ => trivial, ?_, ?_, ?_⟩
  · exact (C10_not_ready ⟨false⟩ [⟨0, 0, 16384⟩] [] [] []).1 rfl
  · exact (C10_not_ready ⟨false⟩ [] [] (19 :: (PROTO ++ (List.replicate 8 0
      ++ (List.replicate 20 1 ++ List.replicate 20 2)))) (List.replicate 20 9)).2.1
  · exact (C10_not_ready ⟨true⟩ [] [] [] []).2.2


/-! ## Claim C8 -/

/-- Claim C8: the scheduling loop of `download` continues exactly while
blocks are missing and some worker is alive — `_can_continue` is false
precisely when all required blocks are collected or every proc is dead —
and the command then either succeeds (when the blocks are all there) or
prints the accumulated worker errors and raises the download failure
(when they are not); there is no third outcome. -/
theorem C8_termination (s : DState) (nBlocks : Nat) :
    (canContinue s nBlocks = false
        ↔ (nBlocks ≤ s.blocks.length ∨ ∀ p ∈ s.procs, p.status = .dead)) ∧
    ((∃ bs, downloadFinish s.blocks nBlocks s.errors = .ok bs)
        ↔ nBlocks ≤ s.blocks.length) ∧
    (downloadFinish s.blocks nBlocks s.errors = .error (.downloadFailed s.errors)
        ↔ s.blocks.length < nBlocks) := by
  refine ⟨?_, ?_, ?_⟩
  · constructor
    · intro h
      unfold canContinue at h
      split_ifs at h with h1 h2
      · exact Or.inl h1
      · right
        intro p hp
        by_contra hne
        exact h2 (List.any_eq_true.mpr ⟨p, hp, by simp [procAlive, hne]⟩)
    · intro h
      unfold canContinue
      split_ifs with h1 h2
      all_goals try rfl
      exfalso
      rcases h with h | h
      · exact h1 h
      · rcases List.any_eq_true.mp h2 with ⟨p, hp, ha⟩
        have hd := h p hp
        simp [procAlive, hd] at ha
  · unfold downloadFinish
    split_ifs with h
    · constructor
      · rintro ⟨bs, hbs⟩
        exact absurd hbs (by simp)
      · intro hle
        omega
    · constructor
      · intro _
        omega
      · intro _
        exact ⟨_, rfl⟩
  · unfold downloadFinish
    split_ifs with h
    · constructor
      · intro _
        exact h
      · intro _
        rfl
    · constructor
      · intro hc
        exact absurd hc (by simp)
      · intro hc
        omega


/-! ## Claim C9: piece and block arithmetic -/

/-- Sum of a constant function over `List.range`. -/
theorem sum_range_const (f : Nat → Nat) (c : Nat) :
    ∀ m, (∀ j, j < m → f j = c) → ((List.range m).map f).sum = m * c := by
  intro m
  induction m with
  | zero => intro _; simp
  | succ k ih =>
    intro h
    rw [List.range_succ, List.map_append, List.sum_append,
      ih (fun j hj => h j (by omega))]
    simp only [List.map_cons, List.map_nil, List.sum_cons, List.sum_nil,
      h k (by omega)]
    ring

/-- The block lengths `min(BLOCK_SIZE, L - j*BLOCK_SIZE)` over
`j < ceil(L / BLOCK_SIZE)` sum to `L`. -/
theorem sum_min_blocks (L : Nat) (hL : 0 < L) :
    ((List.range (numBlocks L)).map
        (fun j => min BLOCK_SIZE (L - j * BLOCK_SIZE))).sum = L := by
  have hnum : numBlocks L = (L + 16384 - 1) / 16384 := rfl
  have hB : BLOCK_SIZE = 16384 := rfl
  obtain ⟨m, hm⟩ : ∃ m, numBlocks L = m + 1 := ⟨numBlocks L - 1, by omega⟩
  have hlow : m * 16384 < L := by omega
  have hub : L ≤ m * 16384 + 16384 := by omega
  have hconstsum : ((List.range m).map
      (fun j => min BLOCK_SIZE (L - j * BLOCK_SIZE))).sum = m * BLOCK_SIZE :=
    sum_range_const _ _ m (fun j hj => by
      show min BLOCK_SIZE (L - j * BLOCK_SIZE) = BLOCK_SIZE
      rw [hB]
      omega)
  rw [hm, List.range_succ, List.map_append, List.sum_append, hconstsum]
  simp only [List.map_cons, List.map_nil, List.sum_cons, List.sum_nil]
  rw [hB]
  omega

/-- Claim C9: with total length `T`, piece length `P > 0` and piece index
`i` with `P*i < T`, the piece's length is `min(P, T - P*i)`, which is
positive and at most `P`; `_Downloader.__init__` splits it into
`ceil(length / 16384)` block requests whose begins are
`0, 16384, 32768, ...` in strictly ascending order, every block except
possibly the last has length exactly `16384 = BLOCK_SIZE`, and the block
lengths sum to the piece length. -/
theorem C9_blocks (P T i : Nat) (hP : 0 < P) (hi : P * i < T) :
    pieceLen P T i = min P (T - P * i) ∧
    (0 < pieceLen P T i ∧ pieceLen P T i ≤ P) ∧
    (mkRequests P T i).length = numBlocks (pieceLen P T i) ∧
    (mkRequests P T i).map RequestM.begin =
      (List.range (numBlocks (pieceLen P T i))).map (fun j => j * BLOCK_SIZE) ∧
    ((mkRequests P T i).map RequestM.begin).Pairwise (· < ·) ∧
    (∀ j, j + 1 < numBlocks (pieceLen P T i) →
      ((mkRequests P T i)[j]?).map RequestM.length = some BLOCK_SIZE) ∧
    ((mkRequests P T i).map RequestM.length).sum = pieceLen P T i := by
  have hB : BLOCK_SIZE = 16384 := rfl
  have hLpos : 0 < pieceLen P T i := by unfold pieceLen; omega
  have hLle : pieceLen P T i ≤ P := by unfold pieceLen; omega
  have hnum : numBlocks (pieceLen P T i)
      = (pieceLen P T i + 16384 - 1) / 16384 := rfl
  have hmap : (mkRequests P T i).map RequestM.begin
      = (List.range (numBlocks (pieceLen P T i))).map (fun j => j * BLOCK_SIZE) := by
    unfold mkRequests
    rw [List.map_map]
    rfl
  refine ⟨?_, ⟨hLpos, hLle⟩, ?_, hmap, ?_, ?_, ?_⟩
  · unfold pieceLen
    omega
  · unfold mkRequests
    simp
  · rw [hmap]
    exact List.pairwise_map.mpr ((List.pairwise_lt_range _).imp
      fun h => (Nat.mul_lt_mul_right (by decide)).mpr h)
  · intro j hj
    have hjn : j < numBlocks (pieceLen P T i) := by omega
    unfold mkRequests
    rw [List.getElem?_map, List.getElem?_range hjn, Option.map_some']
    show some (min BLOCK_SIZE (pieceLen P T i - j * BLOCK_SIZE)) = some BLOCK_SIZE
    have hmin : min BLOCK_SIZE (pieceLen P T i - j * BLOCK_SIZE) = BLOCK_SIZE := by
      rw [hB]
      omega
    rw [hmin]
  · have hlen : (mkRequests P T i).map RequestM.length
        = (List.range (numBlocks (pieceLen P T i))).map
            (fun j => min BLOCK_SIZE (pieceLen P T i - j * BLOCK_SIZE)) := by
      unfold mkRequests
      rw [List.map_map]
      rfl
    rw [hlen]
    exact sum_min_blocks _ hLpos

/-- Witness for C9 at `P = 32768`, `T = 92063`, `i = 2` (piece length
`26527`, two blocks `16384 + 10143`). -/
theorem C9_blocks_witness :
    (0 < 32768 ∧ 32768 * 2 < 92063) ∧
    ((mkRequests 32768 92063 2).map RequestM.length).sum = pieceLen 32768 92063 2 :=
  ⟨⟨by decide, by decide⟩,
    (C9_blocks 32768 92063 2 (by decide) (by decide)).2.2.2.2.2.2⟩

/-! ## Claim C7: scheduler work-unit conservation -/

/-- Decomposition of a proc list around a valid index, with the
corresponding form of `List.set`. -/
theorem batch_decomp (l : List ProcM) (i : Nat) (p : ProcM) (hp : l[i]? = some p) :
    l = l.take i ++ p :: l.drop (i + 1) ∧
    ∀ p', l.set i p' = l.take i ++ p' :: l.drop (i + 1) := by
  have hi : i < l.length := by
    by_contra hni
    rw [List.getElem?_eq_none (by omega)] at hp
    exact Option.noConfusion hp
  have hget : l[i] = p := by
    rw [List.getElem?_eq_getElem hi] at hp
    exact Option.some_inj.mp hp
  refine ⟨?_, fun p' => List.set_eq_take_cons_drop p' hi⟩
  conv_lhs => rw [← List.take_append_drop i l]
  rw [List.drop_eq_getElem_cons hi, hget]

/-- `_end_proc` when the index is out of range: no effect. -/
theorem endProc_none (s : DState) (i : Nat) (hp : s.procs[i]? = none) :
    endProc s i = s := by
  simp [endProc, hp]

/-- `_end_proc` on a proc holding a nonempty batch: the batch is requeued
at the tail of the queue and the proc is marked dead with its batch
cleared. -/
theorem endProc_requeue (s : DState) (i : Nat) (p : ProcM) (b : List RequestM)
    (hp : s.procs[i]? = some p) (hb : p.batch = some b) (hbne : b ≠ []) :
    endProc s i =
      { s with batches := s.batches ++ [b],
               procs := s.procs.set i { status := .dead, batch := none } } := by
  simp [endProc, hp, hb, hbne]

/-- `_end_proc` on a proc holding an empty batch (falsy in Python): the
batch is not requeued and stays on the dead proc. -/
theorem endProc_emptyBatch (s : DState) (i : Nat) (p : ProcM)
    (hp : s.procs[i]? = some p) (hb : p.batch = some []) :
    endProc s i =
      { s with procs := s.procs.set i { status := .dead, batch := some [] } } := by
  simp [endProc, hp, hb]

/-- `_end_proc` on a proc holding no batch. -/
theorem endProc_noBatch (s : DState) (i : Nat) (p : ProcM)
    (hp : s.procs[i]? = some p) (hb : p.batch = none) :
    endProc s i =
      { s with procs := s.procs.set i { status := .dead, batch := none } } := by
  simp [endProc, hp, hb]

/-- `_handle_ready` when the index is out of range. -/
theorem handleReady_none (s : DState) (i : Nat) (alive : Bool)
    (hp : s.procs[i]? = none) : handleReady s i alive = s := by
  simp [handleReady, hp]

/-- `_handle_ready` on a dead proc: `_validate_proc` skips it. -/
theorem handleReady_dead (s : DState) (i : Nat) (alive : Bool) (p : ProcM)
    (hp : s.procs[i]? = some p) (hd : p.status = .dead) :
    handleReady s i alive = s := by
  simp [handleReady, hp, hd]

/-- `_handle_ready` on a proc that is not alive: `_end_proc`. -/
theorem handleReady_notAlive (s : DState) (i : Nat) (p : ProcM)
    (hp : s.procs[i]? = some p) (hd : p.status ≠ .dead) :
    handleReady s i false = endProc s i := by
  simp [handleReady, hp, hd]

/-- `_handle_ready` with an empty queue: `get_batch` returns `None` and
nothing happens. -/
theorem handleReady_emptyQueue (s : DState) (i : Nat) (p : ProcM)
    (hp : s.procs[i]? = some p) (hd : p.status ≠ .dead)
    (hbat : s.batches = []) : handleReady s i true = s := by
  simp [handleReady, hp, hd, getBatch, hbat]

/-- `_handle_ready` on a live proc with a nonempty queued batch: pop the
head of the queue and hand it to the proc, marking it working. -/
theorem handleReady_pop (s : DState) (i : Nat) (p : ProcM) (b : List RequestM)
    (rest : List (List RequestM)) (hp : s.procs[i]? = some p)
    (hd : p.status ≠ .dead) (hbat : s.batches = b :: rest) (hbne : b ≠ []) :
    handleReady s i true =
      { s with batches := rest,
               procs := s.procs.set i { status := .working, batch := some b } } := by
  simp [handleReady, hp, hd, getBatch, hbat, hbne]

/-- `_handle_working` when the index is out of range. -/
theorem handleWorking_none (s : DState) (i : Nat) (alive : Bool) (res : WorkResult)
    (hp : s.procs[i]? = none) : handleWorking s i alive res = s := by
  simp [handleWorking, hp]

/-- `_handle_working` on a dead proc. -/
theorem handleWorking_dead (s : DState) (i : Nat) (alive : Bool) (res : WorkResult)
    (p : ProcM) (hp : s.procs[i]? = some p) (hd : p.status = .dead) :
    handleWorking s i alive res = s := by
  simp [handleWorking, hp, hd]

/-- `_handle_working` on a proc that is not alive: `_end_proc`. -/
theorem handleWorking_notAlive (s : DState) (i : Nat) (res : WorkResult) (p : ProcM)
    (hp : s.procs[i]? = some p) (hd : p.status ≠ .dead) :
    handleWorking s i false res = endProc s i := by
  simp [handleWorking, hp, hd]

/-- `_handle_working` on `EOFError`/`ConnectionResetError`: `_end_proc`. -/
theorem handleWorking_eof (s : DState) (i : Nat) (p : ProcM)
    (hp : s.procs[i]? = some p) (hd : p.status ≠ .dead) :
    handleWorking s i true .eofError = endProc s i := by
  simp [handleWorking, hp, hd]

/-- `_handle_working` on the `None` sentinel: `_end_proc`. -/
theorem handleWorking_sentinel (s : DState) (i : Nat) (p : ProcM)
    (hp : s.procs[i]? = some p) (hd : p.status ≠ .dead) :
    handleWorking s i true .sentinel = endProc s i := by
  simp [handleWorking, hp, hd]

/-- `_handle_working` on a worker exception: record the error, then
`_end_proc`. -/
theorem handleWorking_exc (s : DState) (i : Nat) (e : Nat) (p : ProcM)
    (hp : s.procs[i]? = some p) (hd : p.status ≠ .dead) :
    handleWorking s i true (.exc e) =
      endProc { s with errors := s.errors ++ [e] } i := by
  simp [handleWorking, hp, hd]

/-- `_handle_working` on a successful result from a proc holding a batch:
blocks extended, the delivered batch recorded, the proc marked ready with
its batch cleared, then `_handle_ready` runs again for the same proc. -/
theorem handleWorking_success (s : DState) (i : Nat) (p : ProcM)
    (pieces : List PieceMsgM) (b : List RequestM)
    (hp : s.procs[i]? = some p) (hd : p.status ≠ .dead) (hb : p.batch = some b) :
    handleWorking s i true (.success pieces) =
      handleReady
        { s with blocks := s.blocks ++ pieces,
                 done := s.done ++ [b],
                 procs := s.procs.set i { status := .ready, batch := none } }
        i true := by
  simp [handleWorking, hp, hd, hb]

/-- `_handle_working` on a successful result from a proc holding no
batch. -/
theorem handleWorking_successNoBatch (s : DState) (i : Nat) (p : ProcM)
    (pieces : List PieceMsgM)
    (hp : s.procs[i]? = some p) (hd : p.status ≠ .dead) (hb : p.batch = none) :
    handleWorking s i true (.success pieces) =
      handleReady
        { s with blocks := s.blocks ++ pieces,
                 procs := s.procs.set i { status := .ready, batch := none } }
        i true := by
  simp [handleWorking, hp, hd, hb]

/-- `_end_proc` preserves the multiset of work units. -/
theorem unitsOf_endProc (s : DState) (i : Nat) :
    List.Perm (unitsOf (endProc s i)) (unitsOf s) := by
  cases hp : s.procs[i]? with
  | none => rw [endProc_none s i hp]
  | some p =>
    obtain ⟨hdec, hset⟩ := batch_decomp s.procs i p hp
    cases hb : p.batch with
    | none =>
      rw [endProc_noBatch s i p hp hb]
      rw [List.perm_iff_count]
      intro a
      simp only [unitsOf]
      rw [hset _]
      conv_rhs => rw [hdec]
      simp [List.filterMap_append, List.filterMap_cons, hb, List.count_append]
    | some b =>
      by_cases hbe : b = []
      · subst hbe
        rw [endProc_emptyBatch s i p hp hb]
        rw [List.perm_iff_count]
        intro a
        simp only [unitsOf]
        rw [hset _]
        conv_rhs => rw [hdec]
        simp [List.filterMap_append, List.filterMap_cons, hb, List.count_append]
      · rw [endProc_requeue s i p b hp hb hbe]
        rw [List.perm_iff_count]
        intro a
        simp only [unitsOf]
        rw [hset _]
        conv_rhs => rw [hdec]
        simp [List.filterMap_append, List.filterMap_cons, hb, List.count_append,
          List.count_cons]
        ring

/-- `_handle_ready` preserves the multiset of work units, provided queued
batches are nonempty and the handled proc holds no batch (as in Python,
where only procs whose result has been collected are handed a batch). -/
theorem unitsOf_handleReady (s : DState) (i : Nat) (alive : Bool)
    (hq : ∀ b ∈ s.batches, b ≠ [])
    (hfree : ∀ p, s.procs[i]? = some p → p.batch = none) :
    List.Perm (unitsOf (handleReady s i alive)) (unitsOf s) := by
  cases hp : s.procs[i]? with
  | none => rw [handleReady_none s i alive hp]
  | some p =>
    by_cases hd : p.status = .dead
    · rw [handleReady_dead s i alive p hp hd]
    · cases alive with
      | false =>
        rw [handleReady_notAlive s i p hp hd]
        exact unitsOf_endProc s i
      | true =>
        cases hbat : s.batches with
        | nil => rw [handleReady_emptyQueue s i p hp hd hbat]
        | cons b rest =>
          have hbne : b ≠ [] := hq b (by rw [hbat]; exact List.mem_cons_self _ _)
          rw [handleReady_pop s i p b rest hp hd hbat hbne]
          obtain ⟨hdec, hset⟩ := batch_decomp s.procs i p hp
          have hbn := hfree p hp
          rw [List.perm_iff_count]
          intro a
          simp only [unitsOf]
          rw [hset _]
          conv_rhs => rw [hdec, hbat]
          simp [List.filterMap_append, List.filterMap_cons, hbn, List.count_append,
            List.count_cons]
          ring

/-- `_handle_working` preserves the multiset of work units, provided
queued batches are nonempty. -/
theorem unitsOf_handleWorking (s : DState) (i : Nat) (alive : Bool)
    (res : WorkResult) (hq : ∀ b ∈ s.batches, b ≠ []) :
    List.Perm (unitsOf (handleWorking s i alive res)) (unitsOf s) := by
  cases hp : s.procs[i]? with
  | none => rw [handleWorking_none s i alive res hp]
  | some p =>
    by_cases hd : p.status = .dead
    · rw [handleWorking_dead s i alive res p hp hd]
    · cases alive with
      | false =>
        rw [handleWorking_notAlive s i res p hp hd]
        exact unitsOf_endProc s i
      | true =>
        have hi : i < s.procs.length := by
          by_contra hni
          rw [List.getElem?_eq_none (by omega)] at hp
          exact Option.noConfusion hp
        obtain ⟨hdec, hset⟩ := batch_decomp s.procs i p hp
        cases res with
        | eofError =>
          rw [handleWorking_eof s i p hp hd]
          exact unitsOf_endProc s i
        | sentinel =>
          rw [handleWorking_sentinel s i p hp hd]
          exact unitsOf_endProc s i
        | exc e =>
          rw [handleWorking_exc s i e p hp hd]
          refine (unitsOf_endProc _ i).trans ?_
          rw [List.perm_iff_count]
          intro a
          simp [unitsOf]
        | success pieces =>
          cases hb : p.batch with
          | some b =>
            rw [handleWorking_success s i p pieces b hp hd hb]
            refine (unitsOf_handleReady _ i true ?_ ?_).trans ?_
            · intro b' hb'
              exact hq b' hb'
            · intro p2 hp2
              rw [List.getElem?_set_eq_of_lt _ hi] at hp2
              cases Option.some_inj.mp hp2
              rfl
            · rw [List.perm_iff_count]
              intro a
              simp only [unitsOf]
              rw [hset _]
              conv_rhs => rw [hdec]
              simp [List.filterMap_append, List.filterMap_cons, hb,
                List.count_append, List.count_cons]
              ring
          | none =>
            rw [handleWorking_successNoBatch s i p pieces hp hd hb]
            refine (unitsOf_handleReady _ i true ?_ ?_).trans ?_
            · intro b' hb'
              exact hq b' hb'
            · intro p2 hp2
              rw [List.getElem?_set_eq_of_lt _ hi] at hp2
              cases Option.some_inj.mp hp2
              rfl
            · rw [List.perm_iff_count]
              intro a
              simp only [unitsOf]
              rw [hset _]
              conv_rhs => rw [hdec]
              simp [List.filterMap_append, List.filterMap_cons, hb,
                List.count_append, List.count_cons]

/-- `_end_proc` preserves the scheduler invariant. -/
theorem dwf_endProc (s : DState) (i : Nat) (hwf : dwf s) : dwf (endProc s i) := by
  obtain ⟨hq, hfl, hdm⟩ := hwf
  cases hp : s.procs[i]? with
  | none =>
    rw [endProc_none s i hp]
    exact ⟨hq, hfl, hdm⟩
  | some p =>
    cases hb : p.batch with
    | none =>
      rw [endProc_noBatch s i p hp hb]
      refine ⟨hq, ?_, ?_⟩
      · intro q hqmem b2 hb2
        rcases List.mem_or_eq_of_mem_set hqmem with h | h
        · exact hfl q h b2 hb2
        · subst h
          exact Option.noConfusion hb2
      · intro q hqmem hqd
        rcases List.mem_or_eq_of_mem_set hqmem with h | h
        · exact hdm q h hqd
        · subst h
          rfl
    | some b =>
      by_cases hbe : b = []
      · subst hbe
        exact absurd rfl (hfl p (List.getElem?_mem hp) [] hb)
      · rw [endProc_requeue s i p b hp hb hbe]
        refine ⟨?_, ?_, ?_⟩
        · intro b2 hb2
          rcases List.mem_append.mp hb2 with h | h
          · exact hq b2 h
          · rw [List.mem_singleton] at h
            subst h
            exact hbe
        · intro q hqmem b2 hb2
          rcases List.mem_or_eq_of_mem_set hqmem with h | h
          · exact hfl q h b2 hb2
          · subst h
            exact Option.noConfusion hb2
        · intro q hqmem hqd
          rcases List.mem_or_eq_of_mem_set hqmem with h | h
          · exact hdm q h hqd
          · subst h
            rfl

/-- `_handle_ready` preserves the scheduler invariant. -/
theorem dwf_handleReady (s : DState) (i : Nat) (alive : Bool) (hwf : dwf s) :
    dwf (handleReady s i alive) := by
  obtain ⟨hq, hfl, hdm⟩ := hwf
  cases hp : s.procs[i]? with
  | none =>
    rw [handleReady_none s i alive hp]
    exact ⟨hq, hfl, hdm⟩
  | some p =>
    by_cases hd : p.status = .dead
    · rw [handleReady_dead s i alive p hp hd]
      exact ⟨hq, hfl, hdm⟩
    · cases alive with
      | false =>
        rw [handleReady_notAlive s i p hp hd]
        exact dwf_endProc s i ⟨hq, hfl, hdm⟩
      | true =>
        cases hbat : s.batches with
        | nil =>
          rw [handleReady_emptyQueue s i p hp hd hbat]
          exact ⟨hq, hfl, hdm⟩
        | cons b rest =>
          have hbne : b ≠ [] := hq b (by rw [hbat]; exact List.mem_cons_self _ _)
          rw [handleReady_pop s i p b rest hp hd hbat hbne]
          refine ⟨?_, ?_, ?_⟩
          · intro b2 hb2
            exact hq b2 (by rw [hbat]; exact List.mem_cons_of_mem _ hb2)
          · intro q hqmem b2 hb2
            rcases List.mem_or_eq_of_mem_set hqmem with h | h
            · exact hfl q h b2 hb2
            · subst h
              cases Option.some_inj.mp hb2
              exact hbne
          · intro q hqmem hqd
            rcases List.mem_or_eq_of_mem_set hqmem with h | h
            · exact hdm q h hqd
            · subst h
              exact PStatus.noConfusion hqd

/-- `_handle_working` preserves the scheduler invariant. -/
theorem dwf_handleWorking (s : DState) (i : Nat) (alive : Bool) (res : WorkResult)
    (hwf : dwf s) : dwf (handleWorking s i alive res) := by
  obtain ⟨hq, hfl, hdm⟩ := hwf
  cases hp : s.procs[i]? with
  | none =>
    rw [handleWorking_none s i alive res hp]
    exact ⟨hq, hfl, hdm⟩
  | some p =>
    by_cases hd : p.status = .dead
    · rw [handleWorking_dead s i alive res p hp hd]
      exact ⟨hq, hfl, hdm⟩
    · cases alive with
      | false =>
        rw [handleWorking_notAlive s i res p hp hd]
        exact dwf_endProc s i ⟨hq, hfl, hdm⟩
      | true =>
        cases res with
        | eofError =>
          rw [handleWorking_eof s i p hp hd]
          exact dwf_endProc s i ⟨hq, hfl, hdm⟩
        | sentinel =>
          rw [handleWorking_sentinel s i p hp hd]
          exact dwf_endProc s i ⟨hq, hfl, hdm⟩
        | exc e =>
          rw [handleWorking_exc s i e p hp hd]
          exact dwf_endProc _ i ⟨hq, hfl, hdm⟩
        | success pieces =>
          have hnew : ∀ q ∈ s.procs.set i
              ({ status := .ready, batch := none } : ProcM),
              (∀ b2, q.batch = some b2 → b2 ≠ []) ∧
              (q.status = .dead → q.batch = none) := by
            intro q hqmem
            rcases List.mem_or_eq_of_mem_set hqmem with h | h
            · exact ⟨fun b2 hb2 => hfl q h b2 hb2, hdm q h⟩
            · subst h
              exact ⟨fun b2 hb2 => Option.noConfusion hb2, fun _ => rfl⟩
          cases hb : p.batch with
          | some b =>
            rw [handleWorking_success s i p pieces b hp hd hb]
            exact dwf_handleReady _ i true
              ⟨hq, fun q hm b2 hb2 => (hnew q hm).1 b2 hb2, fun q hm => (hnew q hm).2⟩
          | none =>
            rw [handleWorking_successNoBatch s i p pieces hp hd hb]
            exact dwf_handleReady _ i true
              ⟨hq, fun q hm b2 hb2 => (hnew q hm).1 b2 hb2, fun q hm => (hnew q hm).2⟩

/-- Claim C7: work units are dequeued FIFO from the head of the batch
queue; a worker that dies with a nonempty batch in flight has that batch
requeued at the tail before the proc is marked dead with its batch
cleared; and every scheduler transition (`_end_proc`, `_handle_ready` on
a batch-free proc, `_handle_working`) preserves the multiset of work
units — each batch stays pending in the queue, in flight at a proc, or
delivered — as well as the invariant that queued and in-flight batches
are nonempty and dead procs hold no batch. -/
theorem C7_conservation (s : DState) (i : Nat) (alive : Bool) (res : WorkResult)
    (hwf : dwf s) :
    (∀ b rest, s.batches = b :: rest →
        getBatch s = (some b, { s with batches := rest })) ∧
    (∀ p b, s.procs[i]? = some p → p.batch = some b → b ≠ [] →
        (endProc s i).batches = s.batches ++ [b] ∧
        (endProc s i).procs[i]? = some { status := .dead, batch := none }) ∧
    List.Perm (unitsOf (endProc s i)) (unitsOf s) ∧
    ((∀ p, s.procs[i]? = some p → p.batch = none) →
        List.Perm (unitsOf (handleReady s i alive)) (unitsOf s)) ∧
    List.Perm (unitsOf (handleWorking s i alive res)) (unitsOf s) ∧
    dwf (endProc s i) ∧ dwf (handleReady s i alive) ∧
    dwf (handleWorking s i alive res) := by
  refine ⟨?_, ?_, unitsOf_endProc s i,
    fun hfree => unitsOf_handleReady s i alive hwf.1 hfree,
    unitsOf_handleWorking s i alive res hwf.1,
    dwf_endProc s i hwf, dwf_handleReady s i alive hwf,
    dwf_handleWorking s i alive res hwf⟩
  · intro b rest hbat
    simp [getBatch, hbat]
  · intro p b hp hb hbne
    have hi : i < s.procs.length := by
      by_contra hni
      rw [List.getElem?_eq_none (by omega)] at hp
      exact Option.noConfusion hp
    rw [endProc_requeue s i p b hp hb hbne]
    exact ⟨rfl, List.getElem?_set_eq_of_lt _ hi⟩

/-- Witness for C7: a one-proc pool working on the batch
`[⟨0, 16384, 16384⟩]` with `[⟨0, 0, 16384⟩]` queued; the worker dies and
its batch is requeued at the tail. -/
theorem C7_conservation_witness :
    dwf (DState.mk [[⟨0, 0, 16384⟩]] [⟨.working, some [⟨0, 16384, 16384⟩]⟩] [] [] []) ∧
    List.Perm
      (unitsOf (endProc
        (DState.mk [[⟨0, 0, 16384⟩]] [⟨.working, some [⟨0, 16384, 16384⟩]⟩] [] [] []) 0))
      (unitsOf
        (DState.mk [[⟨0, 0, 16384⟩]] [⟨.working, some [⟨0, 16384, 16384⟩]⟩] [] [] [])) :=
  ⟨by decide,
    (C7_conservation
      (DState.mk [[⟨0, 0, 16384⟩]] [⟨.working, some [⟨0, 16384, 16384⟩]⟩] [] [] [])
      0 true .sentinel (by decide)).2.2.1⟩

end BT
